import Mathlib

/-!
Verification development for TeeTimeFinder (Go CLI, `cmd/root.go` and friends).

Strings are modelled as `List Char` over the ASCII fragment relevant to the
scraped labels; Go's Unicode-aware `strings.ToLower` / `ToUpper` /
`strings.Title` are modelled by their ASCII behaviour, `unicode.IsSpace` by its
ASCII white-space set, and the RE2 regexes of `root.go` (`parenthesisRegex`,
`nineHoleRegex`, `eighteenHoleRegex`) by explicit scanners that implement the
leftmost, non-overlapping match semantics of `ReplaceAllString`.
Go maps are modelled as association lists with unique keys; `sort.Slice` is
modelled by `List.insertionSort` on the same comparator key (both produce a
key-sorted permutation of the input; the claims under study only ever depend
on membership and key-sortedness, never on the order of key-equal elements).
Machine integers (minute counts, spot counts) are modelled as `Int`.
-/

namespace TeeTime

/-- Shorthand. -/
abbrev Str := List Char

/-- Coerce a string literal to the `List Char` model. -/
def str (s : String) : Str := s.data

/-- ASCII lower-casing of one character (model of `unicode.ToLower` on the
ASCII range, which is all `strings.ToLower` does for ASCII input). -/
def lowChar (c : Char) : Char :=
  if 'A' ≤ c ∧ c ≤ 'Z' then Char.ofNat (c.toNat + 32) else c

/-- ASCII upper-casing of one character (also models `unicode.ToTitle` on
ASCII, which is what `strings.Title` applies). -/
def upChar (c : Char) : Char :=
  if 'a' ≤ c ∧ c ≤ 'z' then Char.ofNat (c.toNat - 32) else c

/-- Model of `strings.ToLower`. -/
def lowerStr (s : Str) : Str := s.map lowChar

/-- Model of `strings.ToUpper`. -/
def upperStr (s : Str) : Str := s.map upChar

/-- ASCII white space of `unicode.IsSpace` ('\t', '\n', '\v', '\f', '\r', ' '). -/
def isGoSpace (c : Char) : Bool :=
  c = ' ' ∨ c = '\t' ∨ c = '\n' ∨ c = '\x0b' ∨ c = '\x0c' ∨ c = '\r'

/-- White space of the RE2 class `\s`, i.e. `[\t\n\f\r ]` (note: no '\v'). -/
def isReSpace (c : Char) : Bool :=
  c = '\t' ∨ c = '\n' ∨ c = '\x0c' ∨ c = '\r' ∨ c = ' '

/-- Word characters of the RE2 word-boundary assertion `\b`: `[0-9A-Za-z_]`. -/
def isWordChar (c : Char) : Bool :=
  ('0' ≤ c ∧ c ≤ '9') ∨ ('a' ≤ c ∧ c ≤ 'z') ∨ ('A' ≤ c ∧ c ≤ 'Z') ∨ c = '_'

/-- Model of `strings.TrimSpace`. -/
def trimSpace (s : Str) : Str :=
  ((s.dropWhile isGoSpace).reverse.dropWhile isGoSpace).reverse

/-- List-level prefix test (model of the prefix check inside `strings.Contains`
and of Go's `strings.HasPrefix`). -/
def isPfxOf : Str → Str → Bool
  | [], _ => true
  | _ :: _, [] => false
  | p :: ps, c :: cs => p = c && isPfxOf ps cs

/-- Model of `strings.Contains s pat`: some suffix of `s` starts with `pat`. -/
def containsSub : Str → Str → Bool
  | [], pat => pat.isEmpty
  | s@(_ :: t), pat => isPfxOf pat s || containsSub t pat

/-- Separator test of Go's (deprecated) `strings.Title`, ASCII part: everything
except letters, digits and underscore separates words. -/
def isGoSeparator (c : Char) : Bool :=
  !(('0' ≤ c ∧ c ≤ '9') ∨ ('a' ≤ c ∧ c ≤ 'z') ∨ ('A' ≤ c ∧ c ≤ 'Z') ∨ c = '_')

/-- Worker of `strings.Title`: title-case a rune when the previous rune is a
separator; `prev` tracks the previous original rune. -/
def titleAux (prev : Char) : Str → Str
  | [] => []
  | c :: cs => (if isGoSeparator prev then upChar c else c) :: titleAux c cs

/-- Model of `strings.Title` (initial `prev` is `' '`). -/
def titleStr (s : Str) : Str := titleAux ' ' s

/-- Model of `strings.Fields`: split around runs of white space.
`cur` holds the current in-progress word, reversed. -/
def fieldsAux (cur : Str) : Str → List Str
  | [] => if cur.isEmpty then [] else [cur.reverse]
  | c :: cs =>
    if isGoSpace c then
      if cur.isEmpty then fieldsAux [] cs else cur.reverse :: fieldsAux [] cs
    else fieldsAux (c :: cur) cs

/-- Model of `strings.Fields`. -/
def fieldsStr (s : Str) : List Str := fieldsAux [] s

/-!
Model of `parenthesisRegex.ReplaceAllString(name, "")` with
`parenthesisRegex = \(.+?\)` (root.go:525).  RE2 finds leftmost,
non-overlapping matches: at a `'('`, the lazy `.+?` consumes at least one
character (even a `')'`), so the match closes at the first `')'` that leaves
the dot at least one character; all matched spans are deleted.  This is
implemented as a single left-to-right pass: `none` = no pending `'('`;
`some buf` = a pending `'('` with `buf` the (possibly `')'`-headed) content
consumed by `.+?` so far.  A pending group still open at the end of the input
never matched, so its raw characters are emitted unchanged.
-/
def psGo : Option Str → Str → Str
  | none, [] => []
  | some buf, [] => '(' :: buf
  | none, c :: cs => if c = '(' then psGo (some []) cs else c :: psGo none cs
  | some buf, c :: cs =>
    if c = ')' then
      if buf.isEmpty then psGo (some [')']) cs else psGo none cs
    else psGo (some (buf ++ [c])) cs

/-- Model of stripping all `\(.+?\)` matches (root.go:1262). -/
def parenStrip (s : Str) : Str := psGo none s

/-!
Models of `nineHoleRegex.ReplaceAllString(name, "9 holes")` and
`eighteenHoleRegex.ReplaceAllString(name, "18 holes")` (root.go:526-527,
1275-1277), with `nineHoleRegex = \b9\s*hole(s)?\b` and
`eighteenHoleRegex = \b18\s*hole(s)?\b`.

A match can only start at the trigger digit (`'9'`, resp. `'1'`) preceded by a
non-word character or the start of the text.  `tryHoleTail` checks the part of
the pattern after the trigger digits, namely `\s*hole(s)?\b`:
the greedy `\s*` can only succeed consuming the whole space run (backtracked
positions sit on a space, which cannot start `hole`), the optional `(s)?` is
tried greedily, and `\b` requires the next character to be a non-word
character (or the end).  On success it returns the unconsumed remainder
(starting at the boundary character).
-/

/-- The next character fails to be a word character (or there is none):
the RE2 `\b` assertion after a word character. -/
def nextNonWord : Str → Bool
  | [] => true
  | c :: _ => !isWordChar c

/-- Match `\s*hole(s)?\b` at the head of `l`; return the remainder.
The greedy optional `s` is taken when the boundary after it holds; otherwise
the boundary must hold right after `hole` (in particular it fails when the
next character is an `s` followed by a word character). -/
def tryHoleTail (l : Str) : Option Str :=
  if isPfxOf (str "hole") (l.dropWhile isReSpace) then
    match (l.dropWhile isReSpace).drop 4 with
    | [] => some []
    | c :: r3 =>
      if c = 's' ∧ nextNonWord r3 then some r3
      else if !isWordChar c then some (c :: r3)
      else none
  else none

/-- Pattern tail after a matched `9`: `\s*hole(s)?\b`. -/
def tryAfter9 (l : Str) : Option Str := tryHoleTail l

/-- Pattern tail after a matched `1`: `8\s*hole(s)?\b`. -/
def tryAfter18 : Str → Option Str
  | '8' :: l => tryHoleTail l
  | _ => none

/-- Generic one-regex `ReplaceAllString` scanner with fuel (the fuel is always
instantiated with the length of the input, which suffices).  `w` records
whether the previous character of the original text is a word character (the
state that the `\b` before the trigger digit inspects; it coincides for the
original and the rewritten text since matched spans and replacement blocks
both end in a word character). -/
def repF (trig : Char) (tt : Str → Option Str) (block : Str) :
    Nat → Bool → Str → Str
  | 0, _, l => l
  | _ + 1, _, [] => []
  | n + 1, w, c :: cs =>
    if c = trig ∧ w = false then
      match tt cs with
      | some rest => block ++ repF trig tt block n true rest
      | none => c :: repF trig tt block n (isWordChar c) cs
    else c :: repF trig tt block n (isWordChar c) cs

/-- Model of `nineHoleRegex.ReplaceAllString(·, "9 holes")`. -/
def rep9 (w : Bool) (s : Str) : Str := repF '9' tryAfter9 (str "9 holes") s.length w s

/-- Model of `eighteenHoleRegex.ReplaceAllString(·, "18 holes")`. -/
def rep18 (w : Bool) (s : Str) : Str := repF '1' tryAfter18 (str "18 holes") s.length w s

/-- The common shape of the two replacement scanners, with the fuel fixed to
the input length (as in `rep9`/`rep18`). -/
def repR (trig : Char) (tt : Str → Option Str) (block : Str) (v : Bool)
    (s : Str) : Str :=
  repF trig tt block s.length v s

/-!
The name normalizer `normaliseGameName` (root.go:1258-1321), decomposed into
the steps of the source so that individual claims can talk about the
intermediate values (the `hasNine`/`hasEighteen` detection flags, the word
list after removal of the hole pairs and of the allow-listed modifiers).
-/

/-- Lines 1260-1263: lowercase, trim, strip parenthesised groups, trim. -/
def cleanName (orig : Str) : Str :=
  trimSpace (parenStrip (lowerStr (trimSpace orig)))

/-- Line 1266: `hasNine := strings.Contains(name, "9 hole")` on the cleaned
name (a plain substring test, not a word-boundary regex match). -/
def hasNineToken (orig : Str) : Bool := containsSub (cleanName orig) (str "9 hole")

/-- Line 1267: `hasEighteen := strings.Contains(name, "18 hole")`. -/
def hasEighteenToken (orig : Str) : Bool := containsSub (cleanName orig) (str "18 hole")

/-- Lines 1275-1277: canonicalize `9 hole(s)` / `18 hole(s)` occurrences to
their plural forms (only reached when a token was detected). -/
def canonicalize (name : Str) : Str := rep18 false (rep9 false name)

/-- The allow-listed filler modifiers (root.go:503-511). -/
def allowedStandardModifiers : List Str :=
  [str "walking", str "midweek", str "carts", str "can", str "be",
   str "added", str "maylands"]

/-- Lines 1283-1299: drop each `"9" "holes"` / `"18" "holes"` word pair from
the word stream (`skip` is the source's `skipNext` flag; note that the pair
tests take precedence over an active skip). -/
def removePairs (skip : Bool) : List Str → List Str
  | [] => []
  | w :: ws =>
    if w = str "9" ∧ ws.head? = some (str "holes") then removePairs true ws
    else if w = str "18" ∧ ws.head? = some (str "holes") then removePairs true ws
    else if skip then removePairs false ws
    else w :: removePairs false ws

/-- Lines 1301-1307: remove the allow-listed modifiers. -/
def removeAllowed (ws : List Str) : List Str :=
  ws.filter (fun w => !(allowedStandardModifiers.contains w))

/-- Lines 1265-1321 on an already-cleaned name. -/
def normaliseCore (name : Str) : Str :=
  let h9 := containsSub name (str "9 hole")
  let h18 := containsSub name (str "18 hole")
  if h9 = false ∧ h18 = false then titleStr name
  else
    let name' := canonicalize name
    let fw := removeAllowed (removePairs false (fieldsStr name'))
    if fw = [] then
      if h9 then str "9 Holes"
      else if h18 then str "18 Holes"
      else titleStr name'
    else titleStr name'

/-- Model of `normaliseGameName` (root.go:1258-1321). -/
def normaliseGameName (orig : Str) : Str := normaliseCore (cleanName orig)

/-- The words remaining after steps 3-5 of the normalizer (`finalWords` in the
source), exposed for claims about the "no words remain" condition. -/
def normaliseFinalWords (orig : Str) : List Str :=
  removeAllowed (removePairs false (fieldsStr (canonicalize (cleanName orig))))

/-- Model of `isStandardGame` (root.go:1428-1431). -/
def isStandardGame (name : Str) : Bool :=
  let n := lowerStr (trimSpace name)
  n = str "9 holes" ∨ n = str "18 holes" ∨ n = str "twilight"

/-!
Time-of-day parsing.  `parseTimeToMinutes` (root.go:1137-1156) upper-cases and
trims the label, inserts a space before each `AM`/`PM` occurrence, and then
tries the Go layouts `"03:04 PM"` and `"3:04 PM"`.  Together the two layouts
accept a 1- or 2-digit hour; Go's `time.Parse` requires exactly two minute
digits, lets a single layout space match a run of one or more input spaces,
requires hour ≤ 12 (hour 0 is accepted) and minute ≤ 59, and rejects trailing
text.  `PM` adds 12 to hours below 12; `AM` maps hour 12 to 0.
-/

/-- Replace every (non-overlapping, leftmost) occurrence of the two-character
pattern `p₁p₂` by `repl` (model of `strings.ReplaceAll` for the `"AM"`/`"PM"`
patterns of root.go:1140-1141). -/
def replace2 (p₁ p₂ : Char) (repl : Str) : Str → Str
  | [] => []
  | [c] => [c]
  | c₁ :: c₂ :: cs =>
    if c₁ = p₁ ∧ c₂ = p₂ then repl ++ replace2 p₁ p₂ repl cs
    else c₁ :: replace2 p₁ p₂ repl (c₂ :: cs)

/-- Decimal digit test. -/
def isDigitCh (c : Char) : Bool := '0' ≤ c ∧ c ≤ '9'

/-- Digit value. -/
def digitVal (c : Char) : Int := Int.ofNat (c.toNat - '0'.toNat)

/-- Parse `h:mm<spaces>AM|PM` (both Go 12-hour layouts at once) and return
minutes after midnight. -/
def parse12 (l : Str) : Option Int :=
  match l with
  | d₁ :: rest =>
    if isDigitCh d₁ then
      let hrest : Int × Str :=
        match rest with
        | d₂ :: r₂ => if isDigitCh d₂ then (10 * digitVal d₁ + digitVal d₂, r₂)
                      else (digitVal d₁, rest)
        | [] => (digitVal d₁, rest)
      match hrest.2 with
      | ':' :: m₁ :: m₂ :: r₃ =>
        if isDigitCh m₁ ∧ isDigitCh m₂ then
          let hour := hrest.1
          let minute := 10 * digitVal m₁ + digitVal m₂
          match r₃ with
          | ' ' :: r₄ =>
            match r₄.dropWhile (fun c => c = ' ') with
            | 'A' :: 'M' :: [] =>
              if hour ≤ 12 ∧ minute ≤ 59 then
                some ((if hour = 12 then 0 else hour) * 60 + minute)
              else none
            | 'P' :: 'M' :: [] =>
              if hour ≤ 12 ∧ minute ≤ 59 then
                some ((if hour < 12 then hour + 12 else hour) * 60 + minute)
              else none
            | _ => none
          | _ => none
        else none
      | _ => none
    else none
  | [] => none

/-- Model of `parseTimeToMinutes` (root.go:1137-1156); `none` models the error
return. -/
def parseTimeToMinutes (s : Str) : Option Int :=
  parse12 (replace2 'P' 'M' (str " PM")
    (replace2 'A' 'M' (str " AM") (upperStr (trimSpace s))))

/-- Model of `shared.TeeTimeSlot` (pkg/shared/teetimeslot.go). -/
structure TeeTimeSlot where
  time : Str
  availableSpots : Int
deriving DecidableEq

/-- Sort key used by every `sort.Slice` comparator in root.go: the parsed
minute of day, with the error value 0 of the discarded-error pattern
`timeIMinutes, _ := parseTimeToMinutes(...)`. -/
def slotKey (ts : TeeTimeSlot) : Int := (parseTimeToMinutes ts.time).getD 0

/-- Comparator relation of the per-layout `sort.Slice` calls. -/
def slotLE (a b : TeeTimeSlot) : Prop := slotKey a ≤ slotKey b

instance : DecidableRel slotLE := fun a b => inferInstanceAs (Decidable (_ ≤ _))

instance : IsTotal TeeTimeSlot slotLE := ⟨fun a b => Int.le_total _ _⟩

instance : IsTrans TeeTimeSlot slotLE := ⟨fun _ _ _ => Int.le_trans⟩

/-- Go maps keyed by strings are modelled as association lists with unique
keys; `lookupA` models indexing (`m[k]` with the `ok` flag). -/
def lookupA {β : Type} (m : List (Str × β)) (k : Str) : Option β :=
  (m.find? (fun p => p.1 = k)).map (·.2)

/-- Model of map assignment `m[k] = v`: replace in place, else append. -/
def insertA {β : Type} (m : List (Str × β)) (k : Str) (v : β) : List (Str × β) :=
  if (m.find? (fun p => p.1 = k)).isSome then
    m.map (fun p => if p.1 = k then (k, v) else p)
  else m ++ [(k, v)]

/-- Model of `delete(m, k)`. -/
def eraseA {β : Type} (m : List (Str × β)) (k : Str) : List (Str × β) :=
  m.filter (fun p => !(p.1 = k))

/-- A map whose values are the per-layout timeslot lists
(`map[string][]shared.TeeTimeSlot`). -/
abbrev SlotMap := List (Str × List TeeTimeSlot)

/-- The per-slot keep test of `filterAndSortTimes` (root.go:890-904) and of
`sortTimesByLayoutAndSpots` (root.go:1013-1027): the time label must parse;
when a time window is set (either bound non-zero) the minute of day must lie
inside it; when a spot minimum is set the available spots must reach it. -/
def passesFilter (s e sp : Int) (ts : TeeTimeSlot) : Bool :=
  match parseTimeToMinutes ts.time with
  | none => false
  | some m =>
    (if (s ≠ 0 ∨ e ≠ 0) ∧ (m < s ∨ m > e) then false
     else if sp > 0 ∧ ts.availableSpots < sp then false
     else true)

/-- Running minimum of the parsed minutes, as `earliestTimes[layout]` is
maintained (root.go:907-909). -/
def minKeyFold (m : Int) (l : List TeeTimeSlot) : Int :=
  l.foldl (fun acc tsl => if slotKey tsl < acc then slotKey tsl else acc) m

/-- Model of `filterAndSortTimes` (root.go:883-921): per layout, keep the
passing slots and sort them by minute of day; a layout key exists in the
result exactly when at least one of its slots passed. -/
def filterAndSortTimes (avail : SlotMap) (s e sp : Int) : SlotMap :=
  avail.filterMap (fun p =>
    let kept := List.insertionSort slotLE (p.2.filter (passesFilter s e sp))
    if kept.isEmpty then none else some (p.1, kept))

/-- The `earliestTimes` map built by `sortTimesByLayoutAndSpots`
(root.go:1030-1032): for each layout with at least one passing slot, the
minimum parsed minute among its passing slots. -/
def earliestTimesOf (avail : SlotMap) (s e sp : Int) : List (Str × Int) :=
  avail.filterMap (fun p =>
    match p.2.filter (passesFilter s e sp) with
    | [] => none
    | tsl :: rest => some (p.1, minKeyFold (slotKey tsl) rest))

/-- Earliest-minute lookup with Go's zero value for a missing key. -/
def earliestD (et : List (Str × Int)) (k : Str) : Int := (lookupA et k).getD 0

/-- Model of `sortTimesByLayoutAndSpots` (root.go:1007-1053): the filtered and
sorted buckets, plus the layout names sorted by their earliest minute. -/
def sortTimesByLayoutAndSpots (avail : SlotMap) (s e sp : Int) :
    List Str × SlotMap :=
  let layoutTimes := avail.filterMap (fun p =>
    let kept := List.insertionSort slotLE (p.2.filter (passesFilter s e sp))
    if kept.isEmpty then none else some (p.1, kept))
  let et := earliestTimesOf avail s e sp
  (List.insertionSort (fun a b => earliestD et a ≤ earliestD et b)
    (layoutTimes.map (·.1)), layoutTimes)

/-- Model of `sortLayoutsByEarliest` (root.go:943-961): order the layouts of
an already-filtered bucket map by the parsed minute of each bucket's first
slot; layouts with empty buckets get no `earliestTimes` entry and are not
listed. -/
def sortLayoutsByEarliest (layoutTimes : SlotMap) : List Str :=
  let et := layoutTimes.filterMap (fun p =>
    match p.2 with
    | [] => none
    | tsl :: _ => some (p.1, slotKey tsl))
  List.insertionSort (fun a b => earliestD et a ≤ earliestD et b)
    (et.map (·.1))

/-!
Catalog structures.  The catalog (`gameToTimeslotURLs`) maps a normalized
category name to a map from course name to access URL; the pre-scraped store
maps a category to a map from course name to an already filtered `SlotMap`.
-/

/-- Category name → (course name → access URL). -/
abbrev Catalog := List (Str × List (Str × Str))

/-- Category name → (course name → filtered slot buckets); model of the
`preScrapedTimes` store filled by `preScrapeAllTimes` (root.go:793-834). -/
abbrev PreScraped := List (Str × List (Str × SlotMap))

instance catalogDecEq : DecidableEq Catalog := inferInstance

instance slotMapDecEq : DecidableEq SlotMap := inferInstance

instance courseSlotsDecEq : DecidableEq (List (Str × SlotMap)) := inferInstance

instance preScrapedDecEq : DecidableEq PreScraped := inferInstance

instance catalogTripleDecEq : DecidableEq (List Str × List Str × Catalog) :=
  fun a b => instDecidableEqProd a b

/-- Does `preScraped[game][course]` hold a non-empty bucket map, i.e. is
`len(courseMap[course]) > 0` in root.go:844/864?  A missing game or course
entry counts as empty (Go's zero value). -/
def courseHasTimes (pre : PreScraped) (game course : Str) : Bool :=
  match lookupA pre game with
  | none => false
  | some courseMap => !((lookupA courseMap course).getD []).isEmpty

/-- One iteration group of `filterAvailableGamesAndCourses`
(root.go:840-858 for the standard list, 860-878 for the promo list): walk the
game list, and for each game with a pre-scrape entry keep only the courses
with a non-empty filtered bucket map, deleting the whole catalog entry when
no course survives.  `acc` accumulates the surviving game list. -/
def pruneGames (pre : PreScraped) : List Str → List Str → Catalog →
    List Str × Catalog
  | [], acc, g2t => (acc, g2t)
  | game :: rest, acc, g2t =>
    match lookupA pre game with
    | none => pruneGames pre rest acc g2t
    | some courseMap =>
      let cm := (lookupA g2t game).getD []
      let filteredCM := cm.filter
        (fun cu => !((lookupA courseMap cu.1).getD []).isEmpty)
      if filteredCM.isEmpty then pruneGames pre rest acc (eraseA g2t game)
      else pruneGames pre rest (acc ++ [game]) (insertA g2t game filteredCM)

/-- Model of `filterAvailableGamesAndCourses` (root.go:836-881). -/
def filterAvailableGamesAndCourses (standardGames promoGames : List Str)
    (g2t : Catalog) (pre : PreScraped) : List Str × List Str × Catalog :=
  let std := pruneGames pre standardGames [] g2t
  let pro := pruneGames pre promoGames [] std.2
  (std.1, pro.1, pro.2)

/-- Model of `CourseConfig` (root.go:487-491). -/
structure CourseConfig where
  url : Str
  websiteType : Str
  blacklisted : Bool
deriving DecidableEq

/-- Model of `findCourseInsensitive` (root.go:1185-1193): first configured
course whose lower-cased name equals the lower-cased trimmed query. -/
def findCourseInsensitive (all : List (Str × CourseConfig)) (typed : Str) :
    Option Str :=
  (all.find? (fun kc => lowerStr kc.1 = lowerStr (trimSpace typed))).map (·.1)

/-- Model of `strings.Split(s, ",")`. -/
def splitComma (s : Str) : List Str :=
  s.splitOn ','

/-- Resolve an explicit course list against the config, `none` modelling the
`Error: Course '%s' does not exist in config.` early return
(root.go:622-631 and 637-648). -/
def resolveNames (courses : List (Str × CourseConfig)) (names : List Str) :
    Option (List (Str × CourseConfig)) :=
  names.foldl
    (fun acc n =>
      match acc with
      | none => none
      | some filtered =>
        match findCourseInsensitive courses n with
        | none => none
        | some canon =>
          some (insertA filtered canon ((lookupA courses canon).getD
            ⟨[], [], false⟩)))
    (some [])

/-- The course-selection portion of `runScraper` (root.go:618-660): apply the
`-c` flag list, else the typed comma-separated choice, then unconditionally
delete every blacklisted course from whatever survived.  `none` models the
early error return for an unknown course name. -/
def selectCourses (courses : List (Str × CourseConfig)) (courseList : List Str)
    (choice : Str) : Option (List (Str × CourseConfig)) :=
  let afterFilter : Option (List (Str × CourseConfig)) :=
    if courseList ≠ [] then
      match resolveNames courses (courseList.map trimSpace) with
      | none => none
      | some filtered => some filtered
    else if choice ≠ [] then
      match resolveNames courses
          ((splitComma choice).map trimSpace |>.filter (· ≠ [])) with
      | none => none
      | some filtered => some (if filtered ≠ [] then filtered else courses)
    else some courses
  match afterFilter with
  | none => none
  | some cs => some (cs.filter (fun kc => !kc.2.blacklisted))

/-- The quick18 column filter used both in `preScrapeAllTimes`
(root.go:812-817) and in `handleTimesDisplay` (root.go:989-995): keep exactly
the column whose raw label is string-equal to the normalized category
currently being resolved. -/
def q18ColumnFilter (game : Str) (qTimes : SlotMap) : SlotMap :=
  match lookupA qTimes game with
  | some colTimes => [(game, colTimes)]
  | none => []

/-!
The selection flow of the `for` loop in `runScraper` (root.go:733-767),
modelled as a state machine.  The catalog (with its filter state) is built
before the loop and only read inside it, so a step is parameterized by the
catalog and returns the next phase plus the optionally surfaced booking URL.
An empty selection string is the cancelled prompt (`selectedGame == ""` /
`selectedCourse == ""`).
-/

/-- Phases of the selection loop. -/
inductive Phase where
  | selectCategory : Phase
  | selectCourse (game : Str) : Phase
  | confirmBooking (game course url : Str) : Phase
  | done : Phase
deriving DecidableEq

/-- One transition of the loop: category selection, course selection
(resolving the access URL from the catalog as `promptCourseSelection` does),
or the booking confirmation, whose answer is lower-cased and trimmed and
surfaces the URL on `yes`/`y` (root.go:758-765) before looping back. -/
def stepSession (catalog : Catalog) (ph : Phase) (inp : Str) :
    Phase × Option Str :=
  match ph with
  | Phase.selectCategory =>
    if inp = [] then (Phase.done, none) else (Phase.selectCourse inp, none)
  | Phase.selectCourse game =>
    if inp = [] then (Phase.done, none)
    else (Phase.confirmBooking game inp
      ((lookupA ((lookupA catalog game).getD []) inp).getD []), none)
  | Phase.confirmBooking _ _ url =>
    if lowerStr (trimSpace inp) = str "yes" ∨ lowerStr (trimSpace inp) = str "y"
    then (Phase.selectCategory, some url)
    else (Phase.selectCategory, none)
  | Phase.done => (Phase.done, none)

/-- Full session state: the catalog built before the loop plus the phase. -/
def stepSessionFull (st : Catalog × Phase) (inp : Str) :
    (Catalog × Phase) × Option Str :=
  let r := stepSession st.1 st.2 inp
  ((st.1, r.1), r.2)

/-- The minute of day of the first (earliest) slot of a layout's bucket, with
Go's zero default for an absent or empty bucket. -/
def headMin (lt : SlotMap) (k : Str) : Int :=
  match lookupA lt k with
  | some (tsl :: _) => slotKey tsl
  | _ => 0

/-- The pruning invariant of claim C1 for one category: if the category is
present in the catalog, its course map is non-empty and every listed course
has a non-empty filtered bucket map in the pre-scraped store. -/
def catalogGoodAt (pre : PreScraped) (g2t : Catalog) (g : Str) : Prop :=
  ∀ cm, lookupA g2t g = some cm →
    cm ≠ [] ∧ ∀ cu ∈ cm, courseHasTimes pre g cu.1 = true

/-- The stronger form for games kept on the surviving game lists: the entry
is present, non-empty, and every listed course qualifies. -/
def catalogPresentAt (pre : PreScraped) (g2t : Catalog) (g : Str) : Prop :=
  ∃ cm, lookupA g2t g = some cm ∧ cm ≠ [] ∧
    ∀ cu ∈ cm, courseHasTimes pre g cu.1 = true

/-!
Auxiliary predicates for the idempotence analysis of the normalizer
(claim C5): absence of leading/trailing white space, and absence of any
`\\(.+?\\)` match.
-/

/-- The first character (if any) is not white space. -/
def headOK : Str → Bool
  | [] => true
  | c :: _ => !isGoSpace c

/-- The last character (if any) is not white space. -/
def lastOK (s : Str) : Bool := headOK s.reverse

/-- A string on which stripping `\\(.+?\\)` is the identity: scanning left to
right, every `'('` reached at top level is followed by no `')'` beyond the
immediately next character, so the lazy group can never close. -/
def cleanB : Str → Bool
  | [] => true
  | c :: cs => if c = '(' then !(cs.drop 1).contains ')' else cleanB cs

/-!
Length bounds for the pattern-tail matchers.
-/

theorem length_dropWhile_le' (p : Char → Bool) (l : Str) :
    (l.dropWhile p).length ≤ l.length := by
  induction l with
  | nil => simp
  | cons c cs ih =>
    by_cases h : p c = true <;> simp [List.dropWhile, h] <;> omega

theorem tryHoleTail_length {l r : Str} (h : tryHoleTail l = some r) :
    r.length ≤ l.length := by
  have h1 : (l.dropWhile isReSpace).length ≤ l.length := length_dropWhile_le' _ l
  unfold tryHoleTail at h
  split at h
  · split at h
    · cases h; simp
    · rename_i c r3 heq
      have h2 : r3.length + 1 ≤ (l.dropWhile isReSpace).length := by
        have h3 := congrArg List.length heq
        simp [List.length_drop] at h3
        omega
      split at h
      · cases h; omega
      · split at h
        · cases h; simp only [List.length_cons]; omega
        · cases h
  · cases h

theorem tryAfter9_length {l r : Str} (h : tryAfter9 l = some r) :
    r.length ≤ l.length := tryHoleTail_length h

theorem tryAfter18_length {l r : Str} (h : tryAfter18 l = some r) :
    r.length ≤ l.length := by
  cases l with
  | nil => simp [tryAfter18] at h
  | cons c cs =>
    by_cases hc : c = '8'
    · subst hc
      have := tryHoleTail_length (l := cs) (r := r) (by simpa [tryAfter18] using h)
      simp only [List.length_cons]; omega
    · cases c <;> simp_all [tryAfter18]

/-!
Association-list map lemmas.
-/

theorem lookupA_eq_none_of_not_mem {β : Type} {m : List (Str × β)} {k : Str}
    (h : k ∉ m.map (·.1)) : lookupA m k = none := by
  induction m with
  | nil => rfl
  | cons p rest ih =>
    simp only [List.map_cons, List.mem_cons] at h
    push_neg at h
    have h1 : (p.1 = k) = False := by
      simp only [eq_iff_iff, iff_false]
      exact fun hk => h.1 (by simp [hk])
    simp only [lookupA, List.find?]
    rw [show (decide (p.1 = k)) = false by simp [h1]]
    exact ih h.2

theorem lookupA_filterMap_keyed {β γ : Type} (m : List (Str × β))
    (F : Str × β → Option (Str × γ))
    (hF : ∀ p q, F p = some q → q.1 = p.1)
    (hnd : (m.map (·.1)).Nodup) (k : Str) :
    lookupA (m.filterMap F) k =
      (lookupA m k).bind (fun v => (F (k, v)).map (·.2)) := by
  induction m with
  | nil => rfl
  | cons p rest ih =>
    simp only [List.map_cons, List.nodup_cons] at hnd
    by_cases hk : p.1 = k
    · subst hk
      have hrest : lookupA (rest.filterMap F) p.1 = none := by
        apply lookupA_eq_none_of_not_mem
        intro hmem
        rcases List.mem_map.mp hmem with ⟨q, hq, hq1⟩
        rcases List.mem_filterMap.mp hq with ⟨p', hp', hFp'⟩
        exact hnd.1 (by
          have := hF p' q hFp'
          rw [← hq1, this]
          exact List.mem_map.mpr ⟨p', hp', rfl⟩)
      have hlk : lookupA (p :: rest) p.1 = some p.2 := by
        simp [lookupA, List.find?]
      have hgoal : ((lookupA (p :: rest) p.1).bind
          (fun v => (F (p.1, v)).map (·.2))) = (F p).map (·.2) := by
        rw [hlk]
        show (F (p.1, p.2)).map (·.2) = (F p).map (·.2)
        rw [Prod.mk.eta]
      rw [hgoal]
      simp only [List.filterMap_cons]
      rcases hFp : F p with _ | q
      · rw [hrest]; rfl
      · have hq1 : q.1 = p.1 := hF p q hFp
        simp [lookupA, List.find?, hq1]
    · have hlk : lookupA (p :: rest) k = lookupA rest k := by
        simp only [lookupA, List.find?]
        rw [show (decide (p.1 = k)) = false by simp [hk]]
      rw [hlk, ← ih hnd.2]
      simp only [List.filterMap_cons]
      rcases hFp : F p with _ | q
      · rfl
      · have hq1 : q.1 = p.1 := hF p q hFp
        simp only [lookupA, List.find?]
        rw [show (decide (q.1 = k)) = false by simp [hq1, hk]]

/-- Bucket lookup in a `filterAndSortTimes` result, for key-unique input. -/
theorem lookupA_filterAndSortTimes (avail : SlotMap) (s e sp : Int)
    (hnd : (avail.map (·.1)).Nodup) (k : Str) :
    lookupA (filterAndSortTimes avail s e sp) k =
      (lookupA avail k).bind (fun b =>
        let kept := List.insertionSort slotLE (b.filter (passesFilter s e sp))
        if kept.isEmpty then none else some kept) := by
  unfold filterAndSortTimes
  rw [lookupA_filterMap_keyed _ _ (fun p q hq => by
    dsimp only at hq
    split at hq
    · cases hq
    · cases hq; rfl) hnd]
  rcases lookupA avail k with _ | b
  · rfl
  · show (if (List.insertionSort slotLE (b.filter (passesFilter s e sp))).isEmpty = true
        then none
        else some ((k : Str), List.insertionSort slotLE
          (b.filter (passesFilter s e sp)))).map (fun x => x.2) =
      (if (List.insertionSort slotLE (b.filter (passesFilter s e sp))).isEmpty = true
        then none
        else some (List.insertionSort slotLE (b.filter (passesFilter s e sp))))
    split
    · rfl
    · rfl

/-!
Claim C8: the filtering/sorting algorithm is applied identically in eager and
lazy mode.
-/

/-- C8: for every input slot map, time-window bounds and spot minimum, the
per-bucket filtered slot lists produced by the eager-mode function
(`filterAndSortTimes`, root.go:883-921) equal those produced by the lazy-mode
function (`sortTimesByLayoutAndSpots`, root.go:1007-1053); the two loops are
verbatim copies of one another, and the lazy function merely also returns the
sorted layout list. -/
theorem eager_lazy_buckets_eq (avail : SlotMap) (s e sp : Int) :
    filterAndSortTimes avail s e sp = (sortTimesByLayoutAndSpots avail s e sp).2 := rfl

/-!
Claim C6: the filtered result contains exactly the slots that parse and pass
the active filters.
-/

/-- C6: a slot appears in a bucket of the filtered result exactly when it
appears in the corresponding input bucket, its time label parses to a minute
of day `m`, `m` lies within `[c-60, c+60]` whenever a time window centred at
`c` is active, and its spot count reaches the minimum whenever a positive
spot minimum is set.  Slots whose label fails to parse are merely dropped
(they falsify the right-hand side, not the whole computation). -/
theorem filterAndSortTimes_exact (avail : SlotMap) (c sp : Int) (active : Bool)
    (hnd : (avail.map (·.1)).Nodup) (hc : 0 ≤ c) (layout : Str)
    (slot : TeeTimeSlot) :
    (∃ b, lookupA (filterAndSortTimes avail
        (if active then c - 60 else 0) (if active then c + 60 else 0) sp)
        layout = some b ∧ slot ∈ b) ↔
      ((∃ b₀, lookupA avail layout = some b₀ ∧ slot ∈ b₀) ∧
       ∃ m, parseTimeToMinutes slot.time = some m ∧
         (active = true → c - 60 ≤ m ∧ m ≤ c + 60) ∧
         (0 < sp → sp ≤ slot.availableSpots)) := by
  rw [lookupA_filterAndSortTimes _ _ _ _ hnd]
  rcases hb : lookupA avail layout with _ | b₀
  · simp
  · simp only [Option.some_bind]
    have hpass : ∀ m, parseTimeToMinutes slot.time = some m →
        (passesFilter (if active then c - 60 else 0) (if active then c + 60 else 0)
          sp slot = true ↔
          ((active = true → c - 60 ≤ m ∧ m ≤ c + 60) ∧
           (0 < sp → sp ≤ slot.availableSpots))) := by
      intro m hm
      cases active with
      | false =>
        simp only [Bool.false_eq_true, if_false, false_implies, true_and]
        unfold passesFilter
        rw [hm]
        dsimp only
        have hA : ¬((((0:Int) ≠ 0 ∨ (0:Int) ≠ 0)) ∧ (m < 0 ∨ m > 0)) :=
          fun hcon => by rcases hcon.1 with hne | hne <;> exact hne rfl
        by_cases hB : 0 < sp ∧ slot.availableSpots < sp
        · simp only [if_neg hA, if_pos (show sp > 0 ∧ slot.availableSpots < sp from
            ⟨hB.1, hB.2⟩), Bool.false_eq_true, false_iff]
          intro hs
          have := hs hB.1
          omega
        · simp only [if_neg hA, if_neg (show ¬(sp > 0 ∧ slot.availableSpots < sp) from
            fun hcon => hB ⟨hcon.1, hcon.2⟩), eq_self_iff_true, true_iff]
          intro hsp
          by_contra hlt
          push_neg at hlt
          exact hB ⟨hsp, hlt⟩
      | true =>
        simp only [eq_self_iff_true, if_true, true_implies]
        unfold passesFilter
        rw [hm]
        dsimp only
        have hact : ((c - 60 ≠ 0 ∨ c + 60 ≠ 0) : Prop) := Or.inr (by omega)
        by_cases hW : m < c - 60 ∨ m > c + 60
        · simp only [if_pos (show ((c - 60 ≠ 0 ∨ c + 60 ≠ 0) ∧
              (m < c - 60 ∨ m > c + 60)) from ⟨hact, hW⟩),
            Bool.false_eq_true, false_iff]
          intro hcon
          rcases hcon with ⟨⟨h1, h2⟩, _⟩
          rcases hW with hW | hW <;> omega
        · have hA : ¬((c - 60 ≠ 0 ∨ c + 60 ≠ 0) ∧ (m < c - 60 ∨ m > c + 60)) :=
            fun hcon => hW hcon.2
          by_cases hB : 0 < sp ∧ slot.availableSpots < sp
          · simp only [if_neg hA, if_pos (show sp > 0 ∧ slot.availableSpots < sp from
              ⟨hB.1, hB.2⟩), Bool.false_eq_true, false_iff]
            intro hcon
            have := hcon.2 hB.1
            omega
          · simp only [if_neg hA, if_neg (show ¬(sp > 0 ∧ slot.availableSpots < sp) from
              fun hcon => hB ⟨hcon.1, hcon.2⟩), eq_self_iff_true, true_iff]
            push_neg at hW
            refine ⟨⟨by omega, by omega⟩, ?_⟩
            intro hsp
            by_contra hlt
            push_neg at hlt
            exact hB ⟨hsp, hlt⟩
    set kept := List.insertionSort slotLE (b₀.filter (passesFilter
      (if active then c - 60 else 0) (if active then c + 60 else 0) sp))
      with hkept
    constructor
    · intro ⟨b, hbeq, hmem⟩
      by_cases hemp : kept.isEmpty = true
      · rw [if_pos hemp] at hbeq; cases hbeq
      · rw [if_neg hemp] at hbeq
        cases hbeq
        have hmem' : slot ∈ b₀.filter (passesFilter _ _ sp) :=
          ((List.perm_insertionSort slotLE _).mem_iff).mp hmem
        rw [List.mem_filter] at hmem'
        rcases hmem' with ⟨hmem0, hpassb⟩
        rcases hparse : parseTimeToMinutes slot.time with _ | m
        · exfalso
          unfold passesFilter at hpassb
          rw [hparse] at hpassb
          cases hpassb
        · exact ⟨⟨b₀, rfl, hmem0⟩, m, rfl, (hpass m hparse).mp hpassb⟩
    · intro ⟨⟨b₀', hb₀', hmem0⟩, m, hparse, hwin, hsp⟩
      cases hb₀'
      have hpassb : passesFilter _ _ sp slot = true := (hpass m hparse).mpr ⟨hwin, hsp⟩
      have hmem' : slot ∈ kept :=
        ((List.perm_insertionSort slotLE _).mem_iff).mpr
          (List.mem_filter.mpr ⟨hmem0, hpassb⟩)
      refine ⟨kept, ?_, hmem'⟩
      rw [if_neg]
      intro hemp
      rw [List.isEmpty_iff] at hemp
      rw [hemp] at hmem'
      cases hmem'

/-- Witness for C6 at the spec's Scenario A: window centred at 13:00
(minute 780), minimum three spots; the slot `1:30 PM` with four spots is in
the result bucket. -/
theorem filterAndSortTimes_exact_witness :
    ∃ b, lookupA (filterAndSortTimes
        [(str "18 Holes",
          [⟨str "8:00 AM", 2⟩, ⟨str "1:30 PM", 4⟩, ⟨str "9:00 AM", 1⟩])]
        (if true then (780 : Int) - 60 else 0) (if true then (780 : Int) + 60 else 0) 3)
        (str "18 Holes") = some b ∧ (⟨str "1:30 PM", 4⟩ : TeeTimeSlot) ∈ b :=
  (filterAndSortTimes_exact
      [(str "18 Holes",
        [⟨str "8:00 AM", 2⟩, ⟨str "1:30 PM", 4⟩, ⟨str "9:00 AM", 1⟩])]
      780 3 true (by decide) (by decide) (str "18 Holes")
      ⟨str "1:30 PM", 4⟩).mpr
    ⟨⟨[⟨str "8:00 AM", 2⟩, ⟨str "1:30 PM", 4⟩, ⟨str "9:00 AM", 1⟩],
      by decide, by decide⟩, 810, by decide, by decide, by decide⟩

/-!
Auxiliary facts for the sorting claim C7.
-/

theorem lookupA_isSome_iff_mem {β : Type} (m : List (Str × β)) (k : Str) :
    (lookupA m k).isSome = true ↔ k ∈ m.map (·.1) := by
  induction m with
  | nil => simp [lookupA]
  | cons p rest ih =>
    by_cases hk : p.1 = k
    · subst hk
      simp only [List.map_cons, List.mem_cons]
      constructor
      · intro _
        exact Or.inl trivial
      · intro _
        simp only [lookupA, List.find?]
        rfl
    · simp only [lookupA, List.find?, List.map_cons, List.mem_cons]
      rw [show (decide (p.1 = k)) = false by simp [hk]]
      simp only [lookupA] at ih
      rw [ih]
      constructor
      · exact Or.inr
      · rintro (h | h)
        · exact absurd h.symm hk
        · exact h

theorem lookupA_mem {β : Type} {m : List (Str × β)} {k : Str} {v : β}
    (h : lookupA m k = some v) : (k, v) ∈ m := by
  unfold lookupA at h
  rcases hf : m.find? (fun p => p.1 = k) with _ | p
  · rw [hf] at h; cases h
  · rw [hf] at h
    have hp := List.find?_some hf
    have hmem := List.mem_of_find?_eq_some hf
    simp only [decide_eq_true_eq] at hp
    cases h
    have : p = (k, p.2) := by
      cases p
      simp_all
    rw [← this]
    exact hmem

theorem minKeyFold_le_init (m : Int) (l : List TeeTimeSlot) :
    minKeyFold m l ≤ m := by
  induction l generalizing m with
  | nil => exact le_refl m
  | cons x xs ih =>
    unfold minKeyFold
    simp only [List.foldl_cons]
    by_cases h : slotKey x < m
    · rw [if_pos h]
      exact le_trans (ih (slotKey x)) (by omega)
    · rw [if_neg h]
      exact ih m

theorem minKeyFold_le_mem {x : TeeTimeSlot} {l : List TeeTimeSlot} (m : Int)
    (hx : x ∈ l) : minKeyFold m l ≤ slotKey x := by
  induction l generalizing m with
  | nil => cases hx
  | cons y ys ih =>
    unfold minKeyFold
    simp only [List.foldl_cons]
    rcases List.mem_cons.mp hx with hx | hx
    · subst hx
      by_cases h : slotKey x < m
      · rw [if_pos h]; exact minKeyFold_le_init _ _
      · rw [if_neg h]
        exact le_trans (minKeyFold_le_init m ys) (by omega)
    · by_cases h : slotKey y < m
      · rw [if_pos h]; exact ih _ hx
      · rw [if_neg h]; exact ih _ hx

theorem minKeyFold_eq_or_mem (m : Int) (l : List TeeTimeSlot) :
    minKeyFold m l = m ∨ ∃ x ∈ l, minKeyFold m l = slotKey x := by
  induction l generalizing m with
  | nil => exact Or.inl rfl
  | cons y ys ih =>
    unfold minKeyFold
    simp only [List.foldl_cons]
    by_cases h : slotKey y < m
    · rw [if_pos h]
      rcases ih (slotKey y) with h' | ⟨x, hx, h'⟩
      · exact Or.inr ⟨y, List.mem_cons_self _ _, h'⟩
      · exact Or.inr ⟨x, List.mem_cons_of_mem _ hx, h'⟩
    · rw [if_neg h]
      rcases ih m with h' | ⟨x, hx, h'⟩
      · exact Or.inl h'
      · exact Or.inr ⟨x, List.mem_cons_of_mem _ hx, h'⟩

theorem sorted_head_le {h : TeeTimeSlot} {t : List TeeTimeSlot}
    (hs : (h :: t).Sorted slotLE) {x : TeeTimeSlot} (hx : x ∈ h :: t) :
    slotKey h ≤ slotKey x := by
  rcases List.mem_cons.mp hx with hx | hx
  · subst hx; exact le_refl _
  · exact (List.sorted_cons.mp hs).1 x hx

/-- The head of the sorted filtered bucket carries the same minute as the
running minimum `earliestTimes` records for that layout. -/
theorem head_insertionSort_eq_minKeyFold (tsl : TeeTimeSlot)
    (rest : List TeeTimeSlot) :
    ∃ h t, List.insertionSort slotLE (tsl :: rest) = h :: t ∧
      slotKey h = minKeyFold (slotKey tsl) rest := by
  rcases hres : List.insertionSort slotLE (tsl :: rest) with _ | ⟨h, t⟩
  · exfalso
    have := (List.perm_insertionSort slotLE (tsl :: rest)).length_eq
    rw [hres] at this
    simp at this
  · refine ⟨h, t, rfl, ?_⟩
    have hperm := List.perm_insertionSort slotLE (tsl :: rest)
    rw [hres] at hperm
    have hsorted := List.sorted_insertionSort slotLE (tsl :: rest)
    rw [hres] at hsorted
    have h1 : minKeyFold (slotKey tsl) rest ≤ slotKey h := by
      have hmem : h ∈ tsl :: rest := hperm.mem_iff.mp (List.mem_cons_self _ _)
      rcases List.mem_cons.mp hmem with hm | hm
      · rw [hm] at *
        exact minKeyFold_le_init _ _
      · exact minKeyFold_le_mem _ hm
    have h2 : slotKey h ≤ minKeyFold (slotKey tsl) rest := by
      rcases minKeyFold_eq_or_mem (slotKey tsl) rest with he | ⟨x, hx, he⟩
      · rw [he]
        exact sorted_head_le hsorted (hperm.mem_iff.mpr (List.mem_cons_self _ _))
      · rw [he]
        exact sorted_head_le hsorted
          (hperm.mem_iff.mpr (List.mem_cons_of_mem _ hx))
    omega

/-- Lookup in the `earliestTimes` map of `sortTimesByLayoutAndSpots`. -/
theorem lookupA_earliestTimesOf (avail : SlotMap) (s e sp : Int)
    (hnd : (avail.map (·.1)).Nodup) (k : Str) :
    lookupA (earliestTimesOf avail s e sp) k =
      (lookupA avail k).bind (fun b =>
        match b.filter (passesFilter s e sp) with
        | [] => none
        | tsl :: rest => some (minKeyFold (slotKey tsl) rest)) := by
  unfold earliestTimesOf
  rw [lookupA_filterMap_keyed _ _ (fun p q hq => by
    split at hq
    · cases hq
    · cases hq; rfl) hnd]
  rcases lookupA avail k with _ | b
  · rfl
  · show (match b.filter (passesFilter s e sp) with
        | [] => (none : Option (Str × Int))
        | tsl :: rest => some ((k : Str), minKeyFold (slotKey tsl) rest)).map
          (fun (x : Str × Int) => x.2) =
      (match b.filter (passesFilter s e sp) with
        | [] => (none : Option Int)
        | tsl :: rest => some (minKeyFold (slotKey tsl) rest))
    rcases b.filter (passesFilter s e sp) with _ | ⟨tsl, rest⟩
    · rfl
    · rfl

/-- Lookup in the `earliestTimes` map of `sortLayoutsByEarliest`. -/
theorem lookupA_headTimes (lt : SlotMap) (hnd : (lt.map (·.1)).Nodup) (k : Str) :
    lookupA (lt.filterMap (fun p =>
        match p.2 with
        | [] => none
        | tsl :: _ => some (p.1, slotKey tsl))) k =
      (lookupA lt k).bind (fun b =>
        match b with
        | [] => none
        | tsl :: _ => some (slotKey tsl)) := by
  rw [lookupA_filterMap_keyed _ _ (fun p q hq => by
    split at hq
    · cases hq
    · cases hq; rfl) hnd]
  rcases lookupA lt k with _ | b
  · rfl
  · rcases b with _ | ⟨tsl, rest⟩
    · rfl
    · rfl

/-!
Claim C7: buckets are sorted by minute of day, and layout buckets are listed
in ascending order of each bucket's earliest remaining slot, empty buckets
not being displayed.
-/

/-- C7: in the output of `sortTimesByLayoutAndSpots` every bucket is
non-empty and sorted ascending by minute of day, every listed layout appears
exactly when its bucket is non-empty, and the layout list is ascending in the
minute of day of each bucket's earliest (first) slot; the same ordering and
non-emptiness facts hold for `sortLayoutsByEarliest`, the eager-path layout
sorter. -/
theorem layouts_sorted_by_earliest (avail : SlotMap) (s e sp : Int)
    (hnd : (avail.map (·.1)).Nodup) (lt2 : SlotMap)
    (hnd2 : (lt2.map (·.1)).Nodup) :
    (∀ p ∈ (sortTimesByLayoutAndSpots avail s e sp).2,
        p.2.Sorted slotLE ∧ p.2 ≠ []) ∧
    (sortTimesByLayoutAndSpots avail s e sp).1.Sorted
      (fun a b => headMin (sortTimesByLayoutAndSpots avail s e sp).2 a ≤
        headMin (sortTimesByLayoutAndSpots avail s e sp).2 b) ∧
    (∀ l, l ∈ (sortTimesByLayoutAndSpots avail s e sp).1 ↔
      ∃ b, lookupA (sortTimesByLayoutAndSpots avail s e sp).2 l = some b ∧
        b ≠ []) ∧
    (sortLayoutsByEarliest lt2).Sorted
      (fun a b => headMin lt2 a ≤ headMin lt2 b) ∧
    (∀ l, l ∈ sortLayoutsByEarliest lt2 ↔
      ∃ b, lookupA lt2 l = some b ∧ b ≠ []) := by
  have hbuckets : ∀ p ∈ filterAndSortTimes avail s e sp,
      p.2.Sorted slotLE ∧ p.2 ≠ [] := by
    intro p hp
    rcases List.mem_filterMap.mp hp with ⟨q, _, hq⟩
    dsimp only at hq
    split at hq
    · cases hq
    · rename_i hne
      cases hq
      refine ⟨List.sorted_insertionSort slotLE _, ?_⟩
      intro hemp
      apply hne
      rw [show List.insertionSort slotLE (q.2.filter (passesFilter s e sp)) = []
        from hemp]
      rfl
  have hagree : ∀ l, l ∈ (filterAndSortTimes avail s e sp).map (·.1) →
      earliestD (earliestTimesOf avail s e sp) l =
        headMin (filterAndSortTimes avail s e sp) l := by
    intro l hl
    have hsome := (lookupA_isSome_iff_mem (filterAndSortTimes avail s e sp) l).mpr hl
    rcases hb : lookupA (filterAndSortTimes avail s e sp) l with _ | b
    · rw [hb] at hsome; cases hsome
    · have hlk := lookupA_filterAndSortTimes avail s e sp hnd l
      rw [hb] at hlk
      rcases hav : lookupA avail l with _ | b₀
      · rw [hav] at hlk; cases hlk
      · rw [hav] at hlk
        simp only [Option.some_bind] at hlk
        rcases hfil : b₀.filter (passesFilter s e sp) with _ | ⟨tsl, rest⟩
        · exfalso
          rw [hfil] at hlk
          simp at hlk
        · rw [hfil] at hlk
          rw [if_neg (by
            intro hemp
            have hlen := (List.perm_insertionSort slotLE (tsl :: rest)).length_eq
            rw [List.isEmpty_iff.mp hemp] at hlen
            simp at hlen)] at hlk
          cases hlk
          rcases head_insertionSort_eq_minKeyFold tsl rest with ⟨h, t, hh, hkey⟩
          unfold headMin earliestD
          rw [hb, lookupA_earliestTimesOf avail s e sp hnd l, hav]
          simp only [Option.some_bind]
          rw [hfil, hh]
          simp [hkey]
  have hkeys : ∀ l, l ∈ (filterAndSortTimes avail s e sp).map (·.1) ↔
      ∃ b, lookupA (filterAndSortTimes avail s e sp) l = some b ∧ b ≠ [] := by
    intro l
    constructor
    · intro hl
      have hsome := (lookupA_isSome_iff_mem (filterAndSortTimes avail s e sp) l).mpr hl
      rcases hb : lookupA (filterAndSortTimes avail s e sp) l with _ | b
      · rw [hb] at hsome; cases hsome
      · exact ⟨b, rfl, (hbuckets (l, b) (lookupA_mem hb)).2⟩
    · intro ⟨b, hb, _⟩
      exact (lookupA_isSome_iff_mem (filterAndSortTimes avail s e sp) l).mp
        (by rw [hb]; rfl)
  refine ⟨hbuckets, ?_, ?_, ?_, ?_⟩
  · -- ordering of the layout list of sortTimesByLayoutAndSpots
    haveI : IsTotal Str (fun a b =>
        earliestD (earliestTimesOf avail s e sp) a ≤
        earliestD (earliestTimesOf avail s e sp) b) :=
      ⟨fun a b => Int.le_total _ _⟩
    haveI : IsTrans Str (fun a b =>
        earliestD (earliestTimesOf avail s e sp) a ≤
        earliestD (earliestTimesOf avail s e sp) b) :=
      ⟨fun _ _ _ => Int.le_trans⟩
    have hsorted := List.sorted_insertionSort (fun a b =>
        earliestD (earliestTimesOf avail s e sp) a ≤
        earliestD (earliestTimesOf avail s e sp) b)
      ((filterAndSortTimes avail s e sp).map (·.1))
    have hconv : (sortTimesByLayoutAndSpots avail s e sp).1 =
        List.insertionSort (fun a b =>
          earliestD (earliestTimesOf avail s e sp) a ≤
          earliestD (earliestTimesOf avail s e sp) b)
        ((filterAndSortTimes avail s e sp).map (·.1)) := rfl
    rw [hconv]
    have hconv2 : (sortTimesByLayoutAndSpots avail s e sp).2 =
        filterAndSortTimes avail s e sp := rfl
    simp only [hconv2]
    refine List.Pairwise.imp_of_mem ?_ hsorted
    intro a b ha hb hab
    have ha' := (List.mem_insertionSort _).mp ha
    have hb' := (List.mem_insertionSort _).mp hb
    rw [← hagree a ha', ← hagree b hb']
    exact hab
  · -- membership in the layout list of sortTimesByLayoutAndSpots
    intro l
    have hconv : (sortTimesByLayoutAndSpots avail s e sp).1 =
        List.insertionSort (fun a b =>
          earliestD (earliestTimesOf avail s e sp) a ≤
          earliestD (earliestTimesOf avail s e sp) b)
        ((filterAndSortTimes avail s e sp).map (·.1)) := rfl
    have hconv2 : (sortTimesByLayoutAndSpots avail s e sp).2 =
        filterAndSortTimes avail s e sp := rfl
    rw [hconv, hconv2, List.mem_insertionSort]
    exact hkeys l
  · -- ordering of sortLayoutsByEarliest
    haveI : IsTotal Str (fun a b =>
        earliestD (lt2.filterMap (fun p =>
          match p.2 with
          | [] => none
          | tsl :: _ => some (p.1, slotKey tsl))) a ≤
        earliestD (lt2.filterMap (fun p =>
          match p.2 with
          | [] => none
          | tsl :: _ => some (p.1, slotKey tsl))) b) :=
      ⟨fun a b => Int.le_total _ _⟩
    haveI : IsTrans Str (fun a b =>
        earliestD (lt2.filterMap (fun p =>
          match p.2 with
          | [] => none
          | tsl :: _ => some (p.1, slotKey tsl))) a ≤
        earliestD (lt2.filterMap (fun p =>
          match p.2 with
          | [] => none
          | tsl :: _ => some (p.1, slotKey tsl))) b) :=
      ⟨fun _ _ _ => Int.le_trans⟩
    have hsorted := List.sorted_insertionSort (fun a b =>
        earliestD (lt2.filterMap (fun p =>
          match p.2 with
          | [] => none
          | tsl :: _ => some (p.1, slotKey tsl))) a ≤
        earliestD (lt2.filterMap (fun p =>
          match p.2 with
          | [] => none
          | tsl :: _ => some (p.1, slotKey tsl))) b)
      ((lt2.filterMap (fun p =>
          match p.2 with
          | [] => none
          | tsl :: _ => some (p.1, slotKey tsl))).map (·.1))
    have hconv : sortLayoutsByEarliest lt2 =
        List.insertionSort (fun a b =>
          earliestD (lt2.filterMap (fun p =>
            match p.2 with
            | [] => none
            | tsl :: _ => some (p.1, slotKey tsl))) a ≤
          earliestD (lt2.filterMap (fun p =>
            match p.2 with
            | [] => none
            | tsl :: _ => some (p.1, slotKey tsl))) b)
        ((lt2.filterMap (fun p =>
            match p.2 with
            | [] => none
            | tsl :: _ => some (p.1, slotKey tsl))).map (·.1)) := rfl
    rw [hconv]
    have hagree2 : ∀ l, l ∈ (lt2.filterMap (fun p =>
        match p.2 with
        | [] => none
        | tsl :: _ => some (p.1, slotKey tsl))).map (·.1) →
        earliestD (lt2.filterMap (fun p =>
          match p.2 with
          | [] => none
          | tsl :: _ => some (p.1, slotKey tsl))) l = headMin lt2 l := by
      intro l hl
      have hsome := (lookupA_isSome_iff_mem _ l).mpr hl
      rw [lookupA_headTimes lt2 hnd2 l] at hsome
      rcases hbl : lookupA lt2 l with _ | b
      · rw [hbl] at hsome; cases hsome
      · rw [hbl] at hsome
        rcases b with _ | ⟨tsl, rest⟩
        · simp at hsome
        · simp [earliestD, headMin, lookupA_headTimes lt2 hnd2 l, hbl]
    refine List.Pairwise.imp_of_mem ?_ hsorted
    intro a b ha hb hab
    have ha' := (List.mem_insertionSort _).mp ha
    have hb' := (List.mem_insertionSort _).mp hb
    rw [← hagree2 a ha', ← hagree2 b hb']
    exact hab
  · -- membership in sortLayoutsByEarliest
    intro l
    have hconv : sortLayoutsByEarliest lt2 =
        List.insertionSort (fun a b =>
          earliestD (lt2.filterMap (fun p =>
            match p.2 with
            | [] => none
            | tsl :: _ => some (p.1, slotKey tsl))) a ≤
          earliestD (lt2.filterMap (fun p =>
            match p.2 with
            | [] => none
            | tsl :: _ => some (p.1, slotKey tsl))) b)
        ((lt2.filterMap (fun p =>
            match p.2 with
            | [] => none
            | tsl :: _ => some (p.1, slotKey tsl))).map (·.1)) := rfl
    rw [hconv, List.mem_insertionSort, ← lookupA_isSome_iff_mem,
      lookupA_headTimes lt2 hnd2 l]
    rcases hbl : lookupA lt2 l with _ | b
    · simp
    · rcases b with _ | ⟨tsl, rest⟩
      · simp
      · simp

/-- Witness for C7 on the data of the repository's own
`TestSortTimesByLayoutAndSpots` and `TestSortLayoutsByEarliest`. -/
theorem layouts_sorted_by_earliest_witness :
    (∀ p ∈ (sortTimesByLayoutAndSpots
        ([(str "18 Holes",
          [⟨str "9:00 AM", 2⟩, ⟨str "1:30 PM", 4⟩, ⟨str "8:00 AM", 1⟩]),
         (str "9 Holes", [⟨str "7:15 AM", 4⟩, ⟨str "6:50 AM", 2⟩])] : SlotMap)
        480 840 3).2, p.2.Sorted slotLE ∧ p.2 ≠ []) ∧
    (sortTimesByLayoutAndSpots
        ([(str "18 Holes",
          [⟨str "9:00 AM", 2⟩, ⟨str "1:30 PM", 4⟩, ⟨str "8:00 AM", 1⟩]),
         (str "9 Holes", [⟨str "7:15 AM", 4⟩, ⟨str "6:50 AM", 2⟩])] : SlotMap)
        480 840 3).1.Sorted
      (fun a b => headMin (sortTimesByLayoutAndSpots
        ([(str "18 Holes",
          [⟨str "9:00 AM", 2⟩, ⟨str "1:30 PM", 4⟩, ⟨str "8:00 AM", 1⟩]),
         (str "9 Holes", [⟨str "7:15 AM", 4⟩, ⟨str "6:50 AM", 2⟩])] : SlotMap)
        480 840 3).2 a ≤ headMin (sortTimesByLayoutAndSpots
        ([(str "18 Holes",
          [⟨str "9:00 AM", 2⟩, ⟨str "1:30 PM", 4⟩, ⟨str "8:00 AM", 1⟩]),
         (str "9 Holes", [⟨str "7:15 AM", 4⟩, ⟨str "6:50 AM", 2⟩])] : SlotMap)
        480 840 3).2 b) ∧
    (∀ l, l ∈ (sortTimesByLayoutAndSpots
        ([(str "18 Holes",
          [⟨str "9:00 AM", 2⟩, ⟨str "1:30 PM", 4⟩, ⟨str "8:00 AM", 1⟩]),
         (str "9 Holes", [⟨str "7:15 AM", 4⟩, ⟨str "6:50 AM", 2⟩])] : SlotMap)
        480 840 3).1 ↔
      ∃ b, lookupA (sortTimesByLayoutAndSpots
        ([(str "18 Holes",
          [⟨str "9:00 AM", 2⟩, ⟨str "1:30 PM", 4⟩, ⟨str "8:00 AM", 1⟩]),
         (str "9 Holes", [⟨str "7:15 AM", 4⟩, ⟨str "6:50 AM", 2⟩])] : SlotMap)
        480 840 3).2 l = some b ∧ b ≠ []) ∧
    (sortLayoutsByEarliest
        ([(str "9 Holes", [⟨str "10:00 AM", 4⟩]),
         (str "18 Holes", [⟨str "8:30 AM", 4⟩]),
         (str "Twilight", [⟨str "05:00 PM", 4⟩])] : SlotMap)).Sorted
      (fun a b => headMin
        ([(str "9 Holes", [⟨str "10:00 AM", 4⟩]),
         (str "18 Holes", [⟨str "8:30 AM", 4⟩]),
         (str "Twilight", [⟨str "05:00 PM", 4⟩])] : SlotMap) a ≤ headMin
        ([(str "9 Holes", [⟨str "10:00 AM", 4⟩]),
         (str "18 Holes", [⟨str "8:30 AM", 4⟩]),
         (str "Twilight", [⟨str "05:00 PM", 4⟩])] : SlotMap) b) ∧
    (∀ l, l ∈ sortLayoutsByEarliest
        ([(str "9 Holes", [⟨str "10:00 AM", 4⟩]),
         (str "18 Holes", [⟨str "8:30 AM", 4⟩]),
         (str "Twilight", [⟨str "05:00 PM", 4⟩])] : SlotMap) ↔
      ∃ b, lookupA
        ([(str "9 Holes", [⟨str "10:00 AM", 4⟩]),
         (str "18 Holes", [⟨str "8:30 AM", 4⟩]),
         (str "Twilight", [⟨str "05:00 PM", 4⟩])] : SlotMap) l = some b ∧
        b ≠ []) :=
  layouts_sorted_by_earliest
    ([(str "18 Holes",
      [⟨str "9:00 AM", 2⟩, ⟨str "1:30 PM", 4⟩, ⟨str "8:00 AM", 1⟩]),
     (str "9 Holes", [⟨str "7:15 AM", 4⟩, ⟨str "6:50 AM", 2⟩])] : SlotMap)
    480 840 3 (by decide)
    ([(str "9 Holes", [⟨str "10:00 AM", 4⟩]),
     (str "18 Holes", [⟨str "8:30 AM", 4⟩]),
     (str "Twilight", [⟨str "05:00 PM", 4⟩])] : SlotMap) (by decide)

/-!
Claim C10: quick18 column retention is by literal string equality with the
normalized category, so a column label that merely normalizes to the category
is silently dropped.
-/

theorem lookupA_singleton {β : Type} (k l : Str) (v : β) :
    lookupA [(k, v)] l = if k = l then some v else none := by
  unfold lookupA
  by_cases h : k = l
  · subst h
    rw [List.find?_cons_of_pos _ (by simp), if_pos rfl]
    rfl
  · rw [List.find?_cons_of_neg _ (by simp [h]), if_neg h]
    rfl

/-- C10: for every quick18 course, a scraped column is retained by the column
filter (used in `preScrapeAllTimes`, root.go:812-817, and in
`handleTimesDisplay`, root.go:989-995) exactly when its raw label is
string-equal to the normalized category being resolved, and concretely a
column labelled `18 Holes (Walking)` — which normalizes to `18 Holes` — is
dropped when the category `18 Holes` is resolved, leaving an empty slot
map. -/
theorem q18_column_literal_equality (game : Str) (qTimes : SlotMap) :
    (∀ l ts, lookupA (q18ColumnFilter game qTimes) l = some ts ↔
      (l = game ∧ lookupA qTimes game = some ts)) ∧
    normaliseGameName (str "18 Holes (Walking)") = str "18 Holes" ∧
    q18ColumnFilter (str "18 Holes")
      [(str "18 Holes (Walking)", [⟨str "8:00 AM", 2⟩])] = [] := by
  refine ⟨?_, by decide, by decide⟩
  intro l ts
  unfold q18ColumnFilter
  rcases hq : lookupA qTimes game with _ | col
  · constructor
    · intro h
      cases h
    · intro ⟨_, h⟩
      cases h
  · show lookupA [(game, col)] l = some ts ↔ l = game ∧ some col = some ts
    rw [lookupA_singleton]
    by_cases hl : game = l
    · subst hl
      rw [if_pos rfl]
      constructor
      · intro h
        cases h
        exact ⟨rfl, rfl⟩
      · intro ⟨_, h⟩
        exact h
    · rw [if_neg hl]
      constructor
      · intro h
        cases h
      · intro ⟨h, _⟩
        exact absurd h.symm hl

/-!
Claim C9: the selection-loop state machine of `runScraper` (root.go:733-767).
-/

/-- C9: cancelling at the course-selection stage terminates the session (no
transition from `selectCourse` reaches `selectCategory`); any answer at the
booking confirmation transitions back to `selectCategory`, surfacing the URL
exactly on a trimmed lower-cased `yes`/`y`; the confirmation step is the only
transition that re-enters `selectCategory`; and a step never changes the
catalog component of the session state (the catalog and filters are built
before the loop and only read inside it). -/
theorem session_loop_transitions :
    (∀ (catalog : Catalog) (g : Str),
        stepSession catalog (Phase.selectCourse g) (str "") =
          (Phase.done, none) ∧
        ∀ inp, (stepSession catalog (Phase.selectCourse g) inp).1 ≠
          Phase.selectCategory) ∧
    (∀ (catalog : Catalog) (g c u ans : Str),
        (stepSession catalog (Phase.confirmBooking g c u) ans).1 =
          Phase.selectCategory ∧
        ((stepSession catalog (Phase.confirmBooking g c u) ans).2 = some u ↔
          (lowerStr (trimSpace ans) = str "yes" ∨
           lowerStr (trimSpace ans) = str "y"))) ∧
    (∀ (catalog : Catalog) (ph : Phase) (inp : Str),
        (stepSession catalog ph inp).1 = Phase.selectCategory →
        ∃ g c u, ph = Phase.confirmBooking g c u) ∧
    (∀ (st : Catalog × Phase) (inp : Str),
        (stepSessionFull st inp).1.1 = st.1) := by
  refine ⟨?_, ?_, ?_, ?_⟩
  · intro catalog g
    constructor
    · rfl
    · intro inp
      simp only [stepSession]
      by_cases h : inp = []
      · rw [if_pos h]
        intro hcon
        cases hcon
      · rw [if_neg h]
        intro hcon
        cases hcon
  · intro catalog g c u ans
    simp only [stepSession]
    by_cases h : lowerStr (trimSpace ans) = str "yes" ∨
        lowerStr (trimSpace ans) = str "y"
    · rw [if_pos h]
      exact ⟨rfl, by simp [h]⟩
    · rw [if_neg h]
      refine ⟨rfl, ?_⟩
      constructor
      · intro hcon
        cases hcon
      · intro hcon
        exact absurd hcon h
  · intro catalog ph inp
    cases ph with
    | selectCategory =>
      simp only [stepSession]
      by_cases h : inp = []
      · rw [if_pos h]
        intro hcon
        cases hcon
      · rw [if_neg h]
        intro hcon
        cases hcon
    | selectCourse g =>
      simp only [stepSession]
      by_cases h : inp = []
      · rw [if_pos h]
        intro hcon
        cases hcon
      · rw [if_neg h]
        intro hcon
        cases hcon
    | confirmBooking g c u =>
      intro _
      exact ⟨g, c, u, rfl⟩
    | done =>
      intro hcon
      cases hcon
  · intro st inp
    rfl

/-!
Claim C2: the blacklist exemption for explicitly named courses.  The source's
own comment (root.go:654, "remove black-listed courses unless user explicitly
requested them") states the exemption, but the deletion loop at
root.go:655-660 runs after the explicit `-c`/typed filter and removes
blacklisted courses from the filtered set as well, so an explicitly named
blacklisted course is not searched.
-/

/-- C2 (code bug witness): with a single blacklisted configured course
`Riverside` explicitly requested via the course filter, the course-selection
logic of `runScraper` yields an empty course set — the explicitly named
blacklisted course is removed; with the blacklist flag cleared the same
request keeps the course.  This contradicts the claim (and the code's own
comment) that an explicitly named course is searched like any other. -/
theorem blacklisted_removed_even_when_named :
    selectCourses [(str "Riverside", ⟨str "u", str "miclub", true⟩)]
      [str "Riverside"] (str "") = some [] ∧
    selectCourses [(str "Riverside", ⟨str "u", str "miclub", false⟩)]
      [str "Riverside"] (str "") =
      some [(str "Riverside", ⟨str "u", str "miclub", false⟩)] ∧
    selectCourses [(str "Riverside", ⟨str "u", str "miclub", true⟩)]
      [] (str "riverside") = some [] := by decide

/-!
Claim C3: which standard category wins when both hole tokens are detected and
no words remain.  The source checks `hasNine` first (root.go:1311-1316), so
`9 Holes` wins, not `18 Holes` as the claim states.
-/

/-- C3 counterexample: on `"9 holes 18 holes"` both tokens are detected and
no words remain after the removals, yet `normaliseGameName` returns
`9 Holes`, not the `18 Holes` the claim asserts. -/
theorem both_tokens_nine_wins_counterexample :
    hasNineToken (str "9 holes 18 holes") = true ∧
    hasEighteenToken (str "9 holes 18 holes") = true ∧
    normaliseFinalWords (str "9 holes 18 holes") = [] ∧
    normaliseGameName (str "9 holes 18 holes") = str "9 Holes" ∧
    normaliseGameName (str "9 holes 18 holes") ≠ str "18 Holes" := by decide

/-- C3 amended: whenever the 9-hole token is detected and no words remain
after removing the hole-token word pairs and the allow-listed modifiers,
`normaliseGameName` returns `9 Holes` — the 9-hole branch is the earlier
check and wins even when the 18-hole token was detected too. -/
theorem nine_wins_when_no_words_remain (orig : Str)
    (h9 : hasNineToken orig = true) (hfw : normaliseFinalWords orig = []) :
    normaliseGameName orig = str "9 Holes" := by
  unfold hasNineToken at h9
  unfold normaliseFinalWords at hfw
  simp only [normaliseGameName, normaliseCore]
  rw [h9, hfw]
  simp

/-- Witness for the amended C3 at the counterexample label. -/
theorem nine_wins_when_no_words_remain_witness :
    normaliseGameName (str "9 holes 18 holes") = str "9 Holes" :=
  nine_wins_when_no_words_remain (str "9 holes 18 holes")
    (by decide) (by decide)

/-!
Claim C4: how the hole tokens are detected.  The spec (and the repository's
own `TestNormaliseGameName`, case `"  9   hole  Midweek  " -> "9 Holes"`)
describe word-boundary, `\s*`-tolerant matching — which is what the
`nineHoleRegex`/`eighteenHoleRegex` definitions (root.go:526-527) and the
quick18 copy of the normalizer (`nineHoleRegex.MatchString`) implement — but
`normaliseGameName` in root.go:1266-1267 detects with the plain substring
test `strings.Contains(name, "9 hole")`.  The substring test misses the
multi-space test vector (code fails its own test) and conversely fires inside
`"19 holes"`.
-/

/-- C4 (code bug witness): on the repository's own test vector
`"  9   hole  Midweek  "` the substring detection finds no token, so the
label is title-cased to the promo `9   Hole  Midweek` instead of the expected
standard `9 Holes`; and on `"19 holes"` the 9-hole token IS detected (the
claim says a token inside a longer number is not), though the label still
ends up the promo `19 Holes` because the word-pair removal leaves `19`. -/
theorem substring_detection_diverges :
    hasNineToken (str "  9   hole  Midweek  ") = false ∧
    normaliseGameName (str "  9   hole  Midweek  ") =
      str "9   Hole  Midweek" ∧
    hasNineToken (str "19 holes") = true ∧
    normaliseGameName (str "19 holes") = str "19 Holes" := by decide

/-!
Claim C1: catalog pruning after eager filtering.
-/

theorem lookupA_cons_of_pos {β : Type} (p : Str × β) (rest : List (Str × β))
    (k : Str) (h : p.1 = k) : lookupA (p :: rest) k = some p.2 := by
  unfold lookupA
  rw [List.find?_cons_of_pos _ (by simp [h])]
  rfl

theorem lookupA_cons_of_neg {β : Type} (p : Str × β) (rest : List (Str × β))
    (k : Str) (h : ¬p.1 = k) : lookupA (p :: rest) k = lookupA rest k := by
  unfold lookupA
  rw [List.find?_cons_of_neg _ (by simp [h])]

theorem lookupA_append {β : Type} (m m' : List (Str × β)) (k : Str) :
    lookupA (m ++ m') k =
      match lookupA m k with
      | some v => some v
      | none => lookupA m' k := by
  induction m with
  | nil => rfl
  | cons p rest ih =>
    by_cases hk : p.1 = k
    · rw [List.cons_append, lookupA_cons_of_pos p (rest ++ m') k hk,
        lookupA_cons_of_pos p rest k hk]
    · rw [List.cons_append, lookupA_cons_of_neg p (rest ++ m') k hk,
        lookupA_cons_of_neg p rest k hk]
      exact ih

theorem lookupA_mapReplace {β : Type} (m : List (Str × β)) (k : Str) (v : β) :
    lookupA (m.map (fun p => if p.1 = k then (k, v) else p)) k =
      if (lookupA m k).isSome = true then some v else none := by
  induction m with
  | nil => rfl
  | cons p rest ih =>
    by_cases hk : p.1 = k
    · rw [show ((p :: rest).map (fun p => if p.1 = k then (k, v) else p)) =
        ((k, v) : Str × β) :: rest.map (fun p => if p.1 = k then (k, v) else p)
        by simp [hk]]
      rw [lookupA_cons_of_pos ((k, v) : Str × β) _ k rfl,
        lookupA_cons_of_pos p rest k hk]
      simp
    · rw [show ((p :: rest).map (fun p => if p.1 = k then (k, v) else p)) =
        p :: rest.map (fun p => if p.1 = k then (k, v) else p) by simp [hk]]
      rw [lookupA_cons_of_neg p _ k hk, lookupA_cons_of_neg p rest k hk]
      exact ih

theorem lookupA_mapReplace_ne {β : Type} (m : List (Str × β)) (k l : Str)
    (v : β) (hne : l ≠ k) :
    lookupA (m.map (fun p => if p.1 = k then (k, v) else p)) l = lookupA m l := by
  induction m with
  | nil => rfl
  | cons p rest ih =>
    by_cases hk : p.1 = k
    · rw [show ((p :: rest).map (fun p => if p.1 = k then (k, v) else p)) =
        ((k, v) : Str × β) :: rest.map (fun p => if p.1 = k then (k, v) else p)
        by simp [hk]]
      rw [lookupA_cons_of_neg ((k, v) : Str × β) _ l (fun h => hne h.symm),
        lookupA_cons_of_neg p rest l (hk ▸ (fun h => hne h.symm))]
      exact ih
    · rw [show ((p :: rest).map (fun p => if p.1 = k then (k, v) else p)) =
        p :: rest.map (fun p => if p.1 = k then (k, v) else p) by simp [hk]]
      by_cases hl : p.1 = l
      · rw [lookupA_cons_of_pos p _ l hl, lookupA_cons_of_pos p rest l hl]
      · rw [lookupA_cons_of_neg p _ l hl, lookupA_cons_of_neg p rest l hl]
        exact ih

theorem lookupA_insertA_self {β : Type} (m : List (Str × β)) (k : Str) (v : β) :
    lookupA (insertA m k v) k = some v := by
  unfold insertA
  by_cases hp : (m.find? (fun p => p.1 = k)).isSome = true
  · rw [if_pos hp, lookupA_mapReplace, if_pos]
    unfold lookupA
    rcases hf : m.find? (fun p => p.1 = k) with _ | q
    · rw [hf] at hp; cases hp
    · rw [hf]; rfl
  · rw [if_neg hp, lookupA_append]
    have hnone : lookupA m k = none := by
      unfold lookupA
      rcases hf : m.find? (fun p => p.1 = k) with _ | q
      · rw [hf]; rfl
      · rw [hf] at hp; simp at hp
    rw [hnone, lookupA_singleton, if_pos rfl]

theorem lookupA_insertA_ne {β : Type} (m : List (Str × β)) (k l : Str) (v : β)
    (hne : l ≠ k) : lookupA (insertA m k v) l = lookupA m l := by
  unfold insertA
  by_cases hp : (m.find? (fun p => p.1 = k)).isSome = true
  · rw [if_pos hp, lookupA_mapReplace_ne _ _ _ _ hne]
  · rw [if_neg hp, lookupA_append]
    rcases hl : lookupA m l with _ | w
    · rw [lookupA_singleton, if_neg (fun h => hne h.symm)]
    · rfl

theorem lookupA_eraseA_self {β : Type} (m : List (Str × β)) (k : Str) :
    lookupA (eraseA m k) k = none := by
  apply lookupA_eq_none_of_not_mem
  intro hmem
  rcases List.mem_map.mp hmem with ⟨p, hp, hpk⟩
  rcases List.mem_filter.mp hp with ⟨_, hpred⟩
  simp only [Bool.not_eq_true'] at hpred
  rw [hpk] at hpred
  simp at hpred

theorem lookupA_eraseA_ne {β : Type} (m : List (Str × β)) (k l : Str)
    (hne : l ≠ k) : lookupA (eraseA m k) l = lookupA m l := by
  induction m with
  | nil => rfl
  | cons p rest ih =>
    unfold eraseA at ih ⊢
    by_cases hk : p.1 = k
    · rw [show List.filter (fun p => !(p.1 = k : Bool)) (p :: rest) =
        List.filter (fun p => !(p.1 = k : Bool)) rest by
          simp [List.filter, hk]]
      rw [ih, lookupA_cons_of_neg p rest l (hk ▸ (fun h => hne h.symm))]
    · rw [show List.filter (fun p => !(p.1 = k : Bool)) (p :: rest) =
        p :: List.filter (fun p => !(p.1 = k : Bool)) rest by
          simp [List.filter, hk]]
      by_cases hl : p.1 = l
      · rw [lookupA_cons_of_pos _ _ l hl, lookupA_cons_of_pos p rest l hl]
      · rw [lookupA_cons_of_neg _ _ l hl, lookupA_cons_of_neg p rest l hl]
        exact ih

/-- The filtered course map built for one game keeps exactly the courses with
a non-empty pre-scraped bucket map. -/
theorem filteredCM_good {pre : PreScraped} {game : Str}
    {courseMap : List (Str × SlotMap)}
    (hpre : lookupA pre game = some courseMap)
    (cm : List (Str × Str)) :
    ∀ cu ∈ cm.filter (fun cu => !((lookupA courseMap cu.1).getD []).isEmpty),
      courseHasTimes pre game cu.1 = true := by
  intro cu hcu
  rcases List.mem_filter.mp hcu with ⟨_, hpred⟩
  unfold courseHasTimes
  rw [hpre]
  exact hpred

theorem pruneGames_cons_none {pre : PreScraped} {game : Str}
    {rest acc : List Str} {g2t : Catalog}
    (hpre : lookupA pre game = none) :
    pruneGames pre (game :: rest) acc g2t = pruneGames pre rest acc g2t := by
  simp only [pruneGames, hpre]

theorem pruneGames_cons_some {pre : PreScraped} {game : Str}
    {rest acc : List Str} {g2t : Catalog}
    {courseMap : List (Str × SlotMap)}
    (hpre : lookupA pre game = some courseMap) :
    pruneGames pre (game :: rest) acc g2t =
      (if (((lookupA g2t game).getD []).filter
          (fun cu => !((lookupA courseMap cu.1).getD []).isEmpty)).isEmpty = true
       then pruneGames pre rest acc (eraseA g2t game)
       else pruneGames pre rest (acc ++ [game])
         (insertA g2t game (((lookupA g2t game).getD []).filter
           (fun cu => !((lookupA courseMap cu.1).getD []).isEmpty)))) := by
  simp only [pruneGames, hpre]

/-- Processing any list of games preserves the pruning invariant for a
category that already satisfies it. -/
theorem pruneGames_preserves_good (pre : PreScraped) (games : List Str) :
    ∀ (acc : List Str) (g2t : Catalog) (g : Str),
      catalogGoodAt pre g2t g →
      catalogGoodAt pre (pruneGames pre games acc g2t).2 g := by
  induction games with
  | nil => intro acc g2t g hg; exact hg
  | cons game rest ih =>
    intro acc g2t g hg
    rcases hpre : lookupA pre game with _ | courseMap
    · rw [pruneGames_cons_none hpre]
      exact ih acc g2t g hg
    · rw [pruneGames_cons_some hpre]
      by_cases hemp : (((lookupA g2t game).getD []).filter
          (fun cu => !((lookupA courseMap cu.1).getD []).isEmpty)).isEmpty = true
      · rw [if_pos hemp]
        apply ih
        intro cm hcm
        by_cases hgg : g = game
        · subst hgg
          rw [lookupA_eraseA_self] at hcm
          cases hcm
        · rw [lookupA_eraseA_ne _ _ _ hgg] at hcm
          exact hg cm hcm
      · rw [if_neg hemp]
        apply ih
        intro cm hcm
        by_cases hgg : g = game
        · subst hgg
          rw [lookupA_insertA_self] at hcm
          cases hcm
          refine ⟨fun hnil => ?_, filteredCM_good hpre _⟩
          rw [hnil] at hemp
          exact hemp rfl
        · rw [lookupA_insertA_ne _ _ _ _ hgg] at hcm
          exact hg cm hcm

/-- After its game list is processed, every listed game with a pre-scrape
entry satisfies the pruning invariant. -/
theorem pruneGames_establishes_good (pre : PreScraped) (games : List Str) :
    ∀ (acc : List Str) (g2t : Catalog) (g : Str), g ∈ games →
      (lookupA pre g).isSome = true →
      catalogGoodAt pre (pruneGames pre games acc g2t).2 g := by
  induction games with
  | nil => intro acc g2t g hg; cases hg
  | cons game rest ih =>
    intro acc g2t g hg hsome
    by_cases hgg : g = game
    · subst hgg
      rcases hpre : lookupA pre g with _ | courseMap
      · rw [hpre] at hsome; cases hsome
      · rw [pruneGames_cons_some hpre]
        by_cases hemp : (((lookupA g2t g).getD []).filter
            (fun cu => !((lookupA courseMap cu.1).getD []).isEmpty)).isEmpty = true
        · rw [if_pos hemp]
          apply pruneGames_preserves_good
          intro cm hcm
          rw [lookupA_eraseA_self] at hcm
          cases hcm
        · rw [if_neg hemp]
          apply pruneGames_preserves_good
          intro cm hcm
          rw [lookupA_insertA_self] at hcm
          cases hcm
          refine ⟨fun hnil => ?_, filteredCM_good hpre _⟩
          rw [hnil] at hemp
          exact hemp rfl
    · have hgrest : g ∈ rest := by
        rcases List.mem_cons.mp hg with h | h
        · exact absurd h hgg
        · exact h
      rcases hpre : lookupA pre game with _ | courseMap
      · rw [pruneGames_cons_none hpre]
        exact ih acc g2t g hgrest hsome
      · rw [pruneGames_cons_some hpre]
        by_cases hemp : (((lookupA g2t game).getD []).filter
            (fun cu => !((lookupA courseMap cu.1).getD []).isEmpty)).isEmpty = true
        · rw [if_pos hemp]
          exact ih _ _ g hgrest hsome
        · rw [if_neg hemp]
          exact ih _ _ g hgrest hsome

/-- Processing any list of games preserves presence-with-invariant. -/
theorem pruneGames_preserves_present (pre : PreScraped) (games : List Str) :
    ∀ (acc : List Str) (g2t : Catalog) (g : Str),
      catalogPresentAt pre g2t g →
      catalogPresentAt pre (pruneGames pre games acc g2t).2 g := by
  induction games with
  | nil => intro acc g2t g hg; exact hg
  | cons game rest ih =>
    intro acc g2t g hg
    rcases hpre : lookupA pre game with _ | courseMap
    · rw [pruneGames_cons_none hpre]
      exact ih acc g2t g hg
    · rw [pruneGames_cons_some hpre]
      by_cases hgg : g = game
      · subst hgg
        rcases hg with ⟨cm, hlk, hne, hall⟩
        have hfix : cm.filter
            (fun cu => !((lookupA courseMap cu.1).getD []).isEmpty) = cm := by
          apply List.filter_eq_self.mpr
          intro cu hcu
          have hq := hall cu hcu
          unfold courseHasTimes at hq
          rw [hpre] at hq
          exact hq
        have hemp : ¬((((lookupA g2t g).getD []).filter
            (fun cu => !((lookupA courseMap cu.1).getD []).isEmpty)).isEmpty = true) := by
          rw [hlk]
          show ¬((cm.filter
            (fun cu => !((lookupA courseMap cu.1).getD []).isEmpty)).isEmpty = true)
          rw [hfix]
          intro hcon
          exact hne (List.isEmpty_iff.mp hcon)
        rw [if_neg hemp]
        apply ih
        refine ⟨cm, ?_, hne, hall⟩
        rw [hlk]
        show lookupA (insertA g2t g (cm.filter
          (fun cu => !((lookupA courseMap cu.1).getD []).isEmpty))) g = some cm
        rw [hfix, lookupA_insertA_self]
      · rcases hg with ⟨cm, hlk, hne, hall⟩
        by_cases hemp : (((lookupA g2t game).getD []).filter
            (fun cu => !((lookupA courseMap cu.1).getD []).isEmpty)).isEmpty = true
        · rw [if_pos hemp]
          apply ih
          exact ⟨cm, by rw [lookupA_eraseA_ne _ _ _ hgg]; exact hlk, hne, hall⟩
        · rw [if_neg hemp]
          apply ih
          exact ⟨cm, by rw [lookupA_insertA_ne _ _ _ _ hgg]; exact hlk, hne, hall⟩

/-- A key present after pruning was present before. -/
theorem pruneGames_lookup_orig (pre : PreScraped) (games : List Str) :
    ∀ (acc : List Str) (g2t : Catalog) (g : Str),
      (lookupA (pruneGames pre games acc g2t).2 g).isSome = true →
      (lookupA g2t g).isSome = true := by
  induction games with
  | nil => intro acc g2t g h; exact h
  | cons game rest ih =>
    intro acc g2t g h
    rcases hpre : lookupA pre game with _ | courseMap
    · rw [pruneGames_cons_none hpre] at h
      exact ih acc g2t g h
    · rw [pruneGames_cons_some hpre] at h
      by_cases hemp : (((lookupA g2t game).getD []).filter
          (fun cu => !((lookupA courseMap cu.1).getD []).isEmpty)).isEmpty = true
      · rw [if_pos hemp] at h
        have h2 := ih _ _ g h
        by_cases hgg : g = game
        · subst hgg
          rw [lookupA_eraseA_self] at h2
          cases h2
        · rw [lookupA_eraseA_ne _ _ _ hgg] at h2
          exact h2
      · rw [if_neg hemp] at h
        have h2 := ih _ _ g h
        by_cases hgg : g = game
        · subst hgg
          rcases hlk : lookupA g2t g with _ | cm
          · exfalso
            apply hemp
            rw [hlk]
            rfl
          · rfl
        · rw [lookupA_insertA_ne _ _ _ _ hgg] at h2
          exact h2

/-- Every game on the surviving list (beyond the incoming accumulator) is
present in the final catalog with a non-empty, all-qualifying course map. -/
theorem pruneGames_acc_present (pre : PreScraped) (games : List Str) :
    ∀ (acc : List Str) (g2t : Catalog) (g : Str),
      g ∈ (pruneGames pre games acc g2t).1 →
      g ∈ acc ∨ catalogPresentAt pre (pruneGames pre games acc g2t).2 g := by
  induction games with
  | nil => intro acc g2t g h; exact Or.inl h
  | cons game rest ih =>
    intro acc g2t g h
    rcases hpre : lookupA pre game with _ | courseMap
    · rw [pruneGames_cons_none hpre] at h ⊢
      exact ih acc g2t g h
    · rw [pruneGames_cons_some hpre] at h ⊢
      by_cases hemp : (((lookupA g2t game).getD []).filter
          (fun cu => !((lookupA courseMap cu.1).getD []).isEmpty)).isEmpty = true
      · rw [if_pos hemp] at h ⊢
        exact ih _ _ g h
      · rw [if_neg hemp] at h ⊢
        rcases ih _ _ g h with hacc | hpres
        · rcases List.mem_append.mp hacc with hacc | hsing
          · exact Or.inl hacc
          · right
            rcases List.mem_singleton.mp hsing with rfl
            apply pruneGames_preserves_present
            refine ⟨((lookupA g2t g).getD []).filter
              (fun cu => !((lookupA courseMap cu.1).getD []).isEmpty),
              lookupA_insertA_self _ _ _, fun hnil => ?_,
              filteredCM_good hpre _⟩
            rw [hnil] at hemp
            exact hemp rfl
        · exact Or.inr hpres

/-- C1: after eager filtering (`filterAvailableGamesAndCourses`,
root.go:836-881), every category still present in the resolved catalog has a
non-empty course map all of whose courses have a non-empty filtered bucket
map (so at least one course with at least one qualifying slot); every
category on the surviving standard/promo lists is present with such a map;
and a category none of whose courses has qualifying slots is absent from the
result — never present with an empty course map.  The hypotheses record the
call-site facts (root.go:714-724): `preScrapeAllTimes` creates a pre-scrape
entry for every catalog key, and `categoriseGames` put every catalog key on
the standard or promo list. -/
theorem catalog_pruned_nonempty (std promo : List Str) (g2t : Catalog)
    (pre : PreScraped)
    (hcov : ∀ g ∈ g2t.map (fun p => p.1), (lookupA pre g).isSome = true)
    (hin : ∀ g ∈ g2t.map (fun p => p.1), g ∈ std ∨ g ∈ promo) :
    (∀ g, catalogGoodAt pre
      (filterAvailableGamesAndCourses std promo g2t pre).2.2 g) ∧
    (∀ g, g ∈ (filterAvailableGamesAndCourses std promo g2t pre).1 ∨
        g ∈ (filterAvailableGamesAndCourses std promo g2t pre).2.1 →
      catalogPresentAt pre
        (filterAvailableGamesAndCourses std promo g2t pre).2.2 g) ∧
    (∀ g, (∀ course, courseHasTimes pre g course = false) →
      lookupA (filterAvailableGamesAndCourses std promo g2t pre).2.2 g =
        none) := by
  have hstep1 : (filterAvailableGamesAndCourses std promo g2t pre).2.2 =
      (pruneGames pre promo [] (pruneGames pre std [] g2t).2).2 := rfl
  have hgood : ∀ g, catalogGoodAt pre
      (filterAvailableGamesAndCourses std promo g2t pre).2.2 g := by
    intro g
    rw [hstep1]
    intro cm hlk
    have hsome2 : (lookupA (pruneGames pre promo []
        (pruneGames pre std [] g2t).2).2 g).isSome = true := by
      rw [hlk]; rfl
    have hsome1 := pruneGames_lookup_orig pre promo _ _ g hsome2
    have hsome0 := pruneGames_lookup_orig pre std _ _ g hsome1
    have hmem0 : g ∈ g2t.map (fun p => p.1) :=
      (lookupA_isSome_iff_mem g2t g).mp hsome0
    have hpre := hcov g hmem0
    have hGfin : catalogGoodAt pre (pruneGames pre promo []
        (pruneGames pre std [] g2t).2).2 g := by
      rcases hin g hmem0 with hstd | hpromo
      · exact pruneGames_preserves_good pre promo _ _ g
          (pruneGames_establishes_good pre std _ _ g hstd hpre)
      · exact pruneGames_establishes_good pre promo _ _ g hpromo hpre
    exact hGfin cm hlk
  refine ⟨hgood, ?_, ?_⟩
  · intro g hg
    rcases hg with hg | hg
    · have hconv : (filterAvailableGamesAndCourses std promo g2t pre).1 =
          (pruneGames pre std [] g2t).1 := rfl
      rw [hconv] at hg
      rcases pruneGames_acc_present pre std [] g2t g hg with hacc | hpres
      · cases hacc
      · rw [hstep1]
        exact pruneGames_preserves_present pre promo _ _ g hpres
    · have hconv : (filterAvailableGamesAndCourses std promo g2t pre).2.1 =
          (pruneGames pre promo [] (pruneGames pre std [] g2t).2).1 := rfl
      rw [hconv] at hg
      rcases pruneGames_acc_present pre promo [] _ g hg with hacc | hpres
      · cases hacc
      · rw [hstep1]
        exact hpres
  · intro g hnone
    rcases hlk : lookupA (filterAvailableGamesAndCourses std promo g2t pre).2.2 g
      with _ | cm
    · rfl
    · exfalso
      rcases hgood g cm hlk with ⟨hne, hall⟩
      rcases cm with _ | ⟨cu, cmrest⟩
      · exact hne rfl
      · have hq := hall cu (List.mem_cons_self _ _)
        rw [hnone cu.1] at hq
        cases hq

/-- Witness for C1 at the spec's Scenario C: two courses `A` and `B` offer
`18 Holes`; after eager filtering course `A` has no qualifying slots and
course `B` has one, so the resolved catalog under `18 Holes` contains only
course `B`. -/
theorem catalog_pruned_nonempty_witness :
    (∀ g, catalogGoodAt
      [(str "18 Holes",
        [(str "A", ([] : SlotMap)),
         (str "B", ([(str "Main", [⟨str "8:00 AM", 2⟩])] : SlotMap))])]
      (filterAvailableGamesAndCourses [str "18 Holes"] []
        [(str "18 Holes", [(str "A", str "uA"), (str "B", str "uB")])]
        [(str "18 Holes",
          [(str "A", ([] : SlotMap)),
           (str "B", ([(str "Main", [⟨str "8:00 AM", 2⟩])] : SlotMap))])]).2.2
      g) ∧
    (∀ g, g ∈ (filterAvailableGamesAndCourses [str "18 Holes"] []
        [(str "18 Holes", [(str "A", str "uA"), (str "B", str "uB")])]
        [(str "18 Holes",
          [(str "A", ([] : SlotMap)),
           (str "B", ([(str "Main", [⟨str "8:00 AM", 2⟩])] : SlotMap))])]).1 ∨
        g ∈ (filterAvailableGamesAndCourses [str "18 Holes"] []
        [(str "18 Holes", [(str "A", str "uA"), (str "B", str "uB")])]
        [(str "18 Holes",
          [(str "A", ([] : SlotMap)),
           (str "B", ([(str "Main", [⟨str "8:00 AM", 2⟩])] : SlotMap))])]).2.1 →
      catalogPresentAt
        [(str "18 Holes",
          [(str "A", ([] : SlotMap)),
           (str "B", ([(str "Main", [⟨str "8:00 AM", 2⟩])] : SlotMap))])]
        (filterAvailableGamesAndCourses [str "18 Holes"] []
          [(str "18 Holes", [(str "A", str "uA"), (str "B", str "uB")])]
          [(str "18 Holes",
            [(str "A", ([] : SlotMap)),
             (str "B", ([(str "Main", [⟨str "8:00 AM", 2⟩])] : SlotMap))])]).2.2
        g) ∧
    (∀ g, (∀ course, courseHasTimes
        [(str "18 Holes",
          [(str "A", ([] : SlotMap)),
           (str "B", ([(str "Main", [⟨str "8:00 AM", 2⟩])] : SlotMap))])]
        g course = false) →
      lookupA (filterAvailableGamesAndCourses [str "18 Holes"] []
        [(str "18 Holes", [(str "A", str "uA"), (str "B", str "uB")])]
        [(str "18 Holes",
          [(str "A", ([] : SlotMap)),
           (str "B", ([(str "Main", [⟨str "8:00 AM", 2⟩])] : SlotMap))])]).2.2
        g = none) :=
  catalog_pruned_nonempty [str "18 Holes"] []
    [(str "18 Holes", [(str "A", str "uA"), (str "B", str "uB")])]
    [(str "18 Holes",
      [(str "A", ([] : SlotMap)),
       (str "B", ([(str "Main", [⟨str "8:00 AM", 2⟩])] : SlotMap))])]
    (by decide) (by decide)

/-!
Claim C5: idempotence of the normalizer.  Character-level facts about the
ASCII case maps.
-/

theorem toNat_ofNat_valid (n : Nat) (h : n < 0xd800) : (Char.ofNat n).toNat = n := by
  have hv : n.isValidChar := Or.inl h
  simp [Char.ofNat, hv]
  rfl

theorem lowChar_lowChar (c : Char) : lowChar (lowChar c) = lowChar c := by
  by_cases h : 'A' ≤ c ∧ c ≤ 'Z'
  · have h65 : 65 ≤ c.toNat := h.1
    have h90 : c.toNat ≤ 90 := h.2
    have hlc : lowChar c = Char.ofNat (c.toNat + 32) := by unfold lowChar; rw [if_pos h]
    have ht : (Char.ofNat (c.toNat + 32)).toNat = c.toNat + 32 :=
      toNat_ofNat_valid _ (by omega)
    rw [hlc]
    unfold lowChar
    rw [if_neg]
    rintro ⟨-, h2⟩
    have : (Char.ofNat (c.toNat + 32)).toNat ≤ 90 := h2
    omega
  · have hlc : lowChar c = c := by unfold lowChar; rw [if_neg h]
    rw [hlc, hlc]

theorem lowChar_upChar_fixed (c : Char) (h : lowChar c = c) :
    lowChar (upChar c) = c := by
  by_cases hu : 'a' ≤ c ∧ c ≤ 'z'
  · have h97 : 97 ≤ c.toNat := hu.1
    have h122 : c.toNat ≤ 122 := hu.2
    have hut : (Char.ofNat (c.toNat - 32)).toNat = c.toNat - 32 :=
      toNat_ofNat_valid _ (by omega)
    have hue : upChar c = Char.ofNat (c.toNat - 32) := by unfold upChar; rw [if_pos hu]
    rw [hue]
    unfold lowChar
    rw [if_pos]
    · rw [hut]
      have he : c.toNat - 32 + 32 = c.toNat := by omega
      rw [he, Char.ofNat_toNat]
    · constructor
      · show 65 ≤ (Char.ofNat (c.toNat - 32)).toNat
        rw [hut]; omega
      · show (Char.ofNat (c.toNat - 32)).toNat ≤ 90
        rw [hut]; omega
  · have : upChar c = c := by unfold upChar; rw [if_neg hu]
    rw [this, h]

theorem isGoSpace_false_of_ge (c : Char) (h : 33 ≤ c.toNat) : isGoSpace c = false := by
  unfold isGoSpace
  apply decide_eq_false
  rintro (rfl | rfl | rfl | rfl | rfl | rfl) <;> revert h <;> decide

theorem isGoSpace_upChar (c : Char) : isGoSpace (upChar c) = isGoSpace c := by
  by_cases hu : 'a' ≤ c ∧ c ≤ 'z'
  · have h97 : 97 ≤ c.toNat := hu.1
    have h122 : c.toNat ≤ 122 := hu.2
    have hue : upChar c = Char.ofNat (c.toNat - 32) := by unfold upChar; rw [if_pos hu]
    have hut : (Char.ofNat (c.toNat - 32)).toNat = c.toNat - 32 :=
      toNat_ofNat_valid _ (by omega)
    rw [hue, isGoSpace_false_of_ge _ (by omega), isGoSpace_false_of_ge _ (by omega)]
  · have : upChar c = c := by unfold upChar; rw [if_neg hu]
    rw [this]

theorem map_eq_self_of_fixed {f : Char → Char} :
    ∀ {l : Str}, (∀ c ∈ l, f c = c) → l.map f = l
  | [], _ => rfl
  | c :: cs, h => by
    rw [List.map_cons, h c (List.mem_cons_self _ _),
      map_eq_self_of_fixed (fun d hd => h d (List.mem_cons_of_mem _ hd))]

theorem lowerStr_fixed_of_mem {s : Str} (h : ∀ c ∈ s, lowChar c = c) :
    lowerStr s = s := map_eq_self_of_fixed h

theorem mem_lowerStr_fixed {s : Str} {c : Char} (h : c ∈ lowerStr s) :
    lowChar c = c := by
  rcases List.mem_map.mp h with ⟨d, _, rfl⟩
  exact lowChar_lowChar d

/-!
Trim-related facts: `trimSpace` is the identity exactly when neither end is
white space, and its output has that property.
-/

theorem dropWhile_eq_self_of_headOK {s : Str} (h : headOK s = true) :
    s.dropWhile isGoSpace = s := by
  cases s with
  | nil => rfl
  | cons c cs =>
    unfold headOK at h
    rw [List.dropWhile_cons_of_neg]
    simp only [Bool.not_eq_true'] at h
    simp [h]

theorem headOK_dropWhile (s : Str) : headOK (s.dropWhile isGoSpace) = true := by
  induction s with
  | nil => rfl
  | cons c cs ih =>
    by_cases h : isGoSpace c = true
    · rw [List.dropWhile_cons_of_pos (by simp [h])]
      exact ih
    · rw [List.dropWhile_cons_of_neg (by simp [h])]
      unfold headOK
      simp [h]

theorem headOK_prefix {a b : Str} (h : a <+: b) (hb : headOK b = true) :
    headOK a = true := by
  cases a with
  | nil => rfl
  | cons c cs =>
    rcases h with ⟨t, rfl⟩
    exact hb

theorem lastOK_suffix {a b : Str} (h : a <:+ b) (hb : lastOK b = true) :
    lastOK a = true :=
  headOK_prefix (List.reverse_prefix.mpr h) hb

theorem trimSpace_eq_self {s : Str} (h1 : headOK s = true) (h2 : lastOK s = true) :
    trimSpace s = s := by
  unfold trimSpace
  rw [dropWhile_eq_self_of_headOK h1, dropWhile_eq_self_of_headOK h2,
    List.reverse_reverse]

theorem headOK_trimSpace (s : Str) : headOK (trimSpace s) = true := by
  unfold trimSpace
  show lastOK (((s.dropWhile isGoSpace).reverse).dropWhile isGoSpace) = true
  apply lastOK_suffix (List.dropWhile_suffix isGoSpace)
  unfold lastOK
  rw [List.reverse_reverse]
  exact headOK_dropWhile s

theorem lastOK_trimSpace (s : Str) : lastOK (trimSpace s) = true := by
  unfold trimSpace lastOK
  rw [List.reverse_reverse]
  exact headOK_dropWhile _

theorem trimSpace_idem (s : Str) : trimSpace (trimSpace s) = trimSpace s :=
  trimSpace_eq_self (headOK_trimSpace s) (lastOK_trimSpace s)

/-!
`strings.Title` preserves the white-space skeleton and, on a lower-case-fixed
string, is undone by `strings.ToLower`.
-/

theorem titleAux_space_skeleton (s : Str) :
    ∀ p, (titleAux p s).map isGoSpace = s.map isGoSpace := by
  induction s with
  | nil => intro p; rfl
  | cons c cs ih =>
    intro p
    unfold titleAux
    rw [List.map_cons, List.map_cons, ih c]
    by_cases hp : isGoSeparator p = true
    · rw [if_pos hp, isGoSpace_upChar]
    · rw [if_neg hp]

theorem headOK_of_skeleton {a b : Str} (h : a.map isGoSpace = b.map isGoSpace)
    (hb : headOK b = true) : headOK a = true := by
  cases a with
  | nil => rfl
  | cons c cs =>
    cases b with
    | nil => cases h
    | cons d ds =>
      rw [List.map_cons, List.map_cons, List.cons.injEq] at h
      have hb2 : (!isGoSpace d) = true := hb
      show (!isGoSpace c) = true
      rw [h.1]
      exact hb2

theorem lastOK_of_skeleton {a b : Str} (h : a.map isGoSpace = b.map isGoSpace)
    (hb : lastOK b = true) : lastOK a = true := by
  unfold lastOK at hb ⊢
  apply headOK_of_skeleton _ hb
  rw [List.map_reverse, List.map_reverse, h]

theorem headOK_titleStr {s : Str} (h : headOK s = true) :
    headOK (titleStr s) = true :=
  headOK_of_skeleton (titleAux_space_skeleton s ' ') h

theorem lastOK_titleStr {s : Str} (h : lastOK s = true) :
    lastOK (titleStr s) = true :=
  lastOK_of_skeleton (titleAux_space_skeleton s ' ') h

theorem lowerStr_titleAux {s : Str} (h : ∀ c ∈ s, lowChar c = c) :
    ∀ p, lowerStr (titleAux p s) = s := by
  induction s with
  | nil => intro p; rfl
  | cons c cs ih =>
    intro p
    unfold titleAux lowerStr
    rw [List.map_cons]
    have hc : lowChar (if isGoSeparator p = true then upChar c else c) = c := by
      by_cases hp : isGoSeparator p = true
      · rw [if_pos hp]
        exact lowChar_upChar_fixed c (h c (List.mem_cons_self _ _))
      · rw [if_neg hp]
        exact h c (List.mem_cons_self _ _)
    rw [hc]
    have := ih (fun d hd => h d (List.mem_cons_of_mem _ hd)) c
    unfold lowerStr at this
    rw [this]

theorem lowerStr_titleStr {s : Str} (h : ∀ c ∈ s, lowChar c = c) :
    lowerStr (titleStr s) = s := lowerStr_titleAux h ' '

/-- Round trip of the cleaning pipeline over `strings.Title`: on a trimmed,
lower-case-fixed, parenthesis-fixed string, cleaning the title-cased form
recovers the string itself. -/
theorem cleanName_titleStr {s : Str} (h1 : headOK s = true) (h2 : lastOK s = true)
    (hl : ∀ c ∈ s, lowChar c = c) (hp : parenStrip s = s) :
    cleanName (titleStr s) = s := by
  unfold cleanName
  rw [trimSpace_eq_self (headOK_titleStr h1) (lastOK_titleStr h2),
    lowerStr_titleStr hl, hp, trimSpace_eq_self h1 h2]

/-!
The parenthesis-stripping scanner: its outputs satisfy `cleanB`, `cleanB`
strings are fixed points, and `cleanB` is preserved by trimming.
-/

theorem cleanB_cons_ne {c : Char} {cs : Str} (h : c ≠ '(') :
    cleanB (c :: cs) = cleanB cs := by
  simp only [cleanB]
  rw [if_neg h]

theorem cleanB_cons_paren (cs : Str) :
    cleanB ('(' :: cs) = !(cs.drop 1).contains ')' := by
  simp only [cleanB, if_true]

theorem cleanB_of_noClose : ∀ {s : Str}, ')' ∉ s.drop 1 → cleanB s = true
  | [], _ => rfl
  | c :: cs, h => by
    have hcs : ')' ∉ cs := h
    by_cases hc : c = '('
    · subst hc
      rw [cleanB_cons_paren]
      simp only [Bool.not_eq_true', List.contains, List.elem_eq_mem,
        decide_eq_false_iff_not]
      intro hm
      exact hcs (List.drop_subset 1 cs hm)
    · rw [cleanB_cons_ne hc]
      exact cleanB_of_noClose (fun hm => hcs (List.drop_subset 1 cs hm))

theorem cleanB_append_right : ∀ {a b : Str}, cleanB (a ++ b) = true → cleanB b = true
  | [], _, h => h
  | c :: a', b, h => by
    by_cases hc : c = '('
    · subst hc
      rw [List.cons_append, cleanB_cons_paren] at h
      simp only [Bool.not_eq_true', List.contains] at h
      simp only [List.elem_eq_mem, decide_eq_false_iff_not] at h
      cases a' with
      | nil => exact cleanB_of_noClose h
      | cons e a'' =>
        apply cleanB_of_noClose
        intro hm
        exact h (by
          show ')' ∈ ((e :: a'') ++ b).drop 1
          exact List.mem_append.mpr (Or.inr (List.drop_subset 1 b hm)))
    · rw [List.cons_append, cleanB_cons_ne hc] at h
      exact cleanB_append_right h

theorem cleanB_append_left : ∀ {a b : Str}, cleanB (a ++ b) = true → cleanB a = true
  | [], _, _ => rfl
  | c :: a', b, h => by
    by_cases hc : c = '('
    · subst hc
      rw [List.cons_append, cleanB_cons_paren] at h
      rw [cleanB_cons_paren]
      simp only [Bool.not_eq_true', List.contains, List.elem_eq_mem,
        decide_eq_false_iff_not] at h ⊢
      intro hm
      apply h
      cases a' with
      | nil => cases hm
      | cons e a'' =>
        show ')' ∈ ((e :: a'') ++ b).drop 1
        exact List.mem_append.mpr (Or.inl hm)
    · rw [List.cons_append, cleanB_cons_ne hc] at h
      rw [cleanB_cons_ne hc]
      exact cleanB_append_left h

theorem psGo_pending_of_noClose : ∀ {ds : Str}, ')' ∉ ds → ∀ buf,
    psGo (some buf) ds = '(' :: buf ++ ds
  | [], _, buf => by
    show '(' :: buf = '(' :: buf ++ []
    rw [List.append_nil]
  | d :: ds', h, buf => by
    have hd : d ≠ ')' := fun he => h (he ▸ List.mem_cons_self _ _)
    have hds : ')' ∉ ds' := fun hm => h (List.mem_cons_of_mem _ hm)
    show (if d = ')' then _ else psGo (some (buf ++ [d])) ds') = _
    rw [if_neg hd, psGo_pending_of_noClose hds (buf ++ [d])]
    simp

theorem psGo_eq_self_of_cleanB : ∀ {s : Str}, cleanB s = true → psGo none s = s
  | [], _ => rfl
  | c :: cs, h => by
    by_cases hc : c = '('
    · subst hc
      rw [cleanB_cons_paren] at h
      simp only [Bool.not_eq_true', List.contains, List.elem_eq_mem,
        decide_eq_false_iff_not] at h
      show psGo (some []) cs = '(' :: cs
      cases cs with
      | nil => rfl
      | cons e cs' =>
        have hcs' : ')' ∉ cs' := h
        by_cases he : e = ')'
        · subst he
          show (if (')' : Char) = ')' then _ else _) = _
          rw [if_pos rfl]
          show psGo (some [')']) cs' = _
          rw [psGo_pending_of_noClose hcs' [')']]
          rfl
        · show (if e = ')' then _ else psGo (some ([] ++ [e])) cs') = _
          rw [if_neg he, psGo_pending_of_noClose hcs' ([] ++ [e])]
          rfl
    · rw [cleanB_cons_ne hc] at h
      show (if c = '(' then _ else c :: psGo none cs) = _
      rw [if_neg hc, psGo_eq_self_of_cleanB h]

theorem cleanB_psGo : ∀ n, ∀ s : Str, s.length ≤ n →
    cleanB (psGo none s) = true ∧
    ∀ buf, ')' ∉ buf.drop 1 → cleanB (psGo (some buf) s) = true := by
  intro n
  induction n with
  | zero =>
    intro s hs
    rw [List.length_eq_zero.mp (Nat.le_zero.mp hs)]
    refine ⟨rfl, fun buf hb => ?_⟩
    show cleanB ('(' :: buf) = true
    rw [cleanB_cons_paren]
    simp only [Bool.not_eq_true', List.contains, List.elem_eq_mem,
      decide_eq_false_iff_not]
    simpa using hb
  | succ m ih =>
    intro s hs
    cases s with
    | nil =>
      refine ⟨rfl, fun buf hb => ?_⟩
      show cleanB ('(' :: buf) = true
      rw [cleanB_cons_paren]
      simp only [Bool.not_eq_true', List.contains, List.elem_eq_mem,
        decide_eq_false_iff_not]
      simpa using hb
    | cons c cs =>
      have hcs : cs.length ≤ m := by
        have := hs
        simp only [List.length_cons] at this
        omega
      constructor
      · by_cases hc : c = '('
        · subst hc
          show cleanB (psGo (some []) cs) = true
          exact (ih cs hcs).2 [] (by simp)
        · show cleanB (if c = '(' then _ else c :: psGo none cs) = true
          rw [if_neg hc, cleanB_cons_ne hc]
          exact (ih cs hcs).1
      · intro buf hb
        by_cases hc : c = ')'
        · subst hc
          by_cases hbe : buf.isEmpty = true
          · show cleanB (if (')' : Char) = ')' then
              (if buf.isEmpty then psGo (some [')']) cs else psGo none cs)
              else _) = true
            rw [if_pos rfl, if_pos hbe]
            exact (ih cs hcs).2 [')'] (by simp)
          · show cleanB (if (')' : Char) = ')' then
              (if buf.isEmpty then psGo (some [')']) cs else psGo none cs)
              else _) = true
            rw [if_pos rfl, if_neg hbe]
            exact (ih cs hcs).1
        · show cleanB (if c = ')' then _ else psGo (some (buf ++ [c])) cs) = true
          rw [if_neg hc]
          apply (ih cs hcs).2 (buf ++ [c])
          cases buf with
          | nil => simp [hc]
          | cons b0 buf' =>
            intro hm
            rw [show ((b0 :: buf') ++ [c]).drop 1 = buf' ++ [c] from rfl] at hm
            rcases List.mem_append.mp hm with hm | hm
            · exact hb (by simpa using hm)
            · rcases List.mem_singleton.mp hm with rfl
              exact hc rfl

theorem cleanB_parenStrip (s : Str) : cleanB (parenStrip s) = true :=
  (cleanB_psGo s.length s le_rfl).1

theorem cleanB_trimSpace {s : Str} (h : cleanB s = true) :
    cleanB (trimSpace s) = true := by
  unfold trimSpace
  have h1 : cleanB (s.dropWhile isGoSpace) = true := by
    rcases (List.dropWhile_suffix isGoSpace : s.dropWhile isGoSpace <:+ s)
      with ⟨a, ha⟩
    exact cleanB_append_right (ha ▸ h)
  rcases (List.dropWhile_suffix isGoSpace :
      ((s.dropWhile isGoSpace).reverse.dropWhile isGoSpace) <:+
        (s.dropWhile isGoSpace).reverse) with ⟨a, ha⟩
  have hpre : ((s.dropWhile isGoSpace).reverse.dropWhile isGoSpace).reverse ++
      a.reverse = s.dropWhile isGoSpace := by
    rw [← List.reverse_append, ha, List.reverse_reverse]
  exact cleanB_append_left (hpre ▸ h1)

/-!
Scanner machinery for the replacement regexes: fuel invariance, step
equations, and structural facts about the outputs.
-/

theorem rep9_eq_repR : rep9 = repR '9' tryAfter9 (str "9 holes") := rfl

theorem rep18_eq_repR : rep18 = repR '1' tryAfter18 (str "18 holes") := rfl

theorem tryHoleTail_suffix {l r : Str} (h : tryHoleTail l = some r) : r <:+ l := by
  unfold tryHoleTail at h
  by_cases hp : (isPfxOf (str "hole") (l.dropWhile isReSpace)) = true
  · rw [if_pos hp] at h
    have hsuf1 : (l.dropWhile isReSpace).drop 4 <:+ l :=
      ((l.dropWhile isReSpace).drop_suffix 4).trans (List.dropWhile_suffix _)
    rcases hd : (l.dropWhile isReSpace).drop 4 with _ | ⟨c, r3⟩
    · rw [hd] at h
      cases h
      exact ⟨l, by rw [List.append_nil]⟩
    · rw [hd] at h hsuf1
      have h3 : (if c = 's' ∧ nextNonWord r3 = true then some r3
          else if (!isWordChar c) = true then some (c :: r3) else none) =
          some r := h
      by_cases h1 : (c = 's' ∧ nextNonWord r3 = true)
      · rw [if_pos h1] at h3
        cases h3
        exact (List.suffix_cons c r).trans hsuf1
      · rw [if_neg h1] at h3
        by_cases h2 : (!isWordChar c) = true
        · rw [if_pos h2] at h3
          cases h3
          exact hsuf1
        · rw [if_neg h2] at h3
          cases h3
  · rw [if_neg hp] at h
    cases h

theorem tryAfter9_suffix {l r : Str} (h : tryAfter9 l = some r) : r <:+ l :=
  tryHoleTail_suffix h

theorem tryAfter18_suffix {l r : Str} (h : tryAfter18 l = some r) : r <:+ l := by
  cases l with
  | nil => cases h
  | cons c l' =>
    by_cases hc : c = '8'
    · subst hc
      have : tryHoleTail l' = some r := h
      exact (tryHoleTail_suffix this).trans (List.suffix_cons '8' l')
    · exfalso
      unfold tryAfter18 at h
      cases l' <;> revert h <;> cases c <;> simp_all [tryAfter18]

theorem repF_fuel (trig : Char) (tt : Str → Option Str) (block : Str)
    (hsuf : ∀ l r, tt l = some r → r <:+ l) :
    ∀ n (s : Str) v, s.length ≤ n →
      repF trig tt block n v s = repR trig tt block v s := by
  intro n
  induction n using Nat.strong_induction_on with
  | _ n ih =>
    intro s v hs
    cases s with
    | nil =>
      cases n with
      | zero => rfl
      | succ m => rfl
    | cons c cs =>
      cases n with
      | zero => simp at hs
      | succ m =>
        have hcs : cs.length ≤ m := by
          simp only [List.length_cons] at hs
          omega
        show repF trig tt block (m + 1) v (c :: cs) =
          repF trig tt block (cs.length + 1) v (c :: cs)
        rcases h2 : tt cs with _ | r
        · simp only [repF, h2]
          rw [ih m (Nat.lt_succ_self m) cs (isWordChar c) hcs,
            ih cs.length (Nat.lt_succ_of_le hcs) cs (isWordChar c) le_rfl]
        · have hr : r.length ≤ cs.length := (hsuf cs r h2).length_le
          simp only [repF, h2]
          rw [ih m (Nat.lt_succ_self m) r true (le_trans hr hcs),
            ih cs.length (Nat.lt_succ_of_le hcs) r true hr,
            ih m (Nat.lt_succ_self m) cs (isWordChar c) hcs,
            ih cs.length (Nat.lt_succ_of_le hcs) cs (isWordChar c) le_rfl]

theorem repR_nil (trig : Char) (tt : Str → Option Str) (block : Str) (v : Bool) :
    repR trig tt block v [] = [] := rfl

theorem repR_cons_of_not_trig {trig : Char} {tt : Str → Option Str}
    {block : Str} {v : Bool} {c : Char} {cs : Str}
    (hc : ¬(c = trig ∧ v = false)) :
    repR trig tt block v (c :: cs) = c :: repR trig tt block (isWordChar c) cs := by
  show repF trig tt block (cs.length + 1) v (c :: cs) = _
  simp only [repF]
  rw [if_neg hc]
  rfl

theorem repR_cons_of_fail {trig : Char} {tt : Str → Option Str}
    {block : Str} {c : Char} {cs : Str}
    (hc : c = trig) (h2 : tt cs = none) :
    repR trig tt block false (c :: cs) =
      c :: repR trig tt block (isWordChar c) cs := by
  show repF trig tt block (cs.length + 1) false (c :: cs) = _
  simp only [repF, h2]
  rw [if_pos ⟨hc, trivial⟩]
  rfl

theorem repR_cons_of_match {trig : Char} {tt : Str → Option Str}
    {block : Str} {c : Char} {cs r : Str}
    (hsuf : ∀ l r, tt l = some r → r <:+ l)
    (hc : c = trig) (h2 : tt cs = some r) :
    repR trig tt block false (c :: cs) = block ++ repR trig tt block true r := by
  show repF trig tt block (cs.length + 1) false (c :: cs) = _
  simp only [repF, h2]
  rw [if_pos ⟨hc, trivial⟩]
  rw [repF_fuel trig tt block hsuf cs.length r true (hsuf cs r h2).length_le]

theorem repR_ne_nil {trig : Char} {tt : Str → Option Str} {block : Str}
    (hsuf : ∀ l r, tt l = some r → r <:+ l)
    (hb : block ≠ []) {v : Bool} {s : Str} (hs : s ≠ []) :
    repR trig tt block v s ≠ [] := by
  cases s with
  | nil => exact absurd rfl hs
  | cons c cs =>
    by_cases hc : (c = trig ∧ v = false)
    · rcases h2 : tt cs with _ | r
      · rw [hc.2, repR_cons_of_fail hc.1 h2]
        simp
      · rw [hc.2, repR_cons_of_match hsuf hc.1 h2]
        intro hx
        exact hb (List.append_eq_nil.mp hx).1
    · rw [repR_cons_of_not_trig hc]
      simp

theorem mem_repR {trig : Char} {tt : Str → Option Str} {block : Str}
    (hsuf : ∀ l r, tt l = some r → r <:+ l) :
    ∀ n (s : Str), s.length ≤ n → ∀ v {d : Char}, d ∈ repR trig tt block v s →
      d ∈ s ∨ d ∈ block := by
  intro n
  induction n with
  | zero =>
    intro s hs v d hd
    rw [List.length_eq_zero.mp (Nat.le_zero.mp hs)] at hd
    cases hd
  | succ m ih =>
    intro s hs v d hd
    cases s with
    | nil => cases hd
    | cons c cs =>
      have hcs : cs.length ≤ m := by
        simp only [List.length_cons] at hs
        omega
      by_cases hc : (c = trig ∧ v = false)
      · rcases h2 : tt cs with _ | r
        · rw [hc.2, repR_cons_of_fail hc.1 h2] at hd
          rcases List.mem_cons.mp hd with rfl | hd
          · exact Or.inl (List.mem_cons_self _ _)
          · rcases ih cs hcs _ hd with h | h
            · exact Or.inl (List.mem_cons_of_mem _ h)
            · exact Or.inr h
        · rw [hc.2, repR_cons_of_match hsuf hc.1 h2] at hd
          rcases List.mem_append.mp hd with h | h
          · exact Or.inr h
          · have hr : r.length ≤ m := le_trans (hsuf cs r h2).length_le hcs
            rcases ih r hr _ h with h | h
            · exact Or.inl (List.mem_cons_of_mem _ ((hsuf cs r h2).subset h))
            · exact Or.inr h
      · rw [repR_cons_of_not_trig hc] at hd
        rcases List.mem_cons.mp hd with rfl | hd
        · exact Or.inl (List.mem_cons_self _ _)
        · rcases ih cs hcs _ hd with h | h
          · exact Or.inl (List.mem_cons_of_mem _ h)
          · exact Or.inr h

/-!
Interaction of `tryHoleTail` with the scanners: on a scanner output the
pattern tail matches exactly where it matched on the input, and the
remainders correspond.
-/

theorem isPfxOf_cons_ne {p c : Char} {ps cs : Str} (h : p ≠ c) :
    isPfxOf (p :: ps) (c :: cs) = false := by
  simp [isPfxOf, h]

theorem isPfxOf_cons_eq (p : Char) (ps cs : Str) :
    isPfxOf (p :: ps) (p :: cs) = isPfxOf ps cs := by
  simp [isPfxOf]

theorem str_hole_cons : str "hole" = 'h' :: str "ole" := rfl

theorem isWordChar_of_reSpace {c : Char} (h : isReSpace c = true) :
    isWordChar c = false := by
  unfold isReSpace at h
  have h2 := of_decide_eq_true h
  rcases h2 with rfl | rfl | rfl | rfl | rfl <;> decide

theorem tryHoleTail_cons_space {c : Char} {l : Str} (h : isReSpace c = true) :
    tryHoleTail (c :: l) = tryHoleTail l := by
  unfold tryHoleTail
  rw [List.dropWhile_cons_of_pos h]

theorem tryHoleTail_cons_noth {c : Char} {l : Str} (h1 : isReSpace c = false)
    (h2 : c ≠ 'h') : tryHoleTail (c :: l) = none := by
  unfold tryHoleTail
  rw [List.dropWhile_cons_of_neg (by simp [h1])]
  rw [if_neg]
  rw [str_hole_cons, isPfxOf_cons_ne (fun he => h2 he.symm)]
  simp

theorem nextNonWord_repR (trig : Char) (tt : Str → Option Str) (block : Str)
    (Y : Str) :
    nextNonWord (repR trig tt block true Y) = nextNonWord Y := by
  cases Y with
  | nil => rfl
  | cons d t =>
    rw [repR_cons_of_not_trig (by simp)]
    rfl

theorem isPfxOf_repR_true (trig : Char) (tt : Str → Option Str) (block : Str) :
    ∀ (p : Str), (∀ d ∈ p, isWordChar d = true) → ∀ u : Str,
      isPfxOf p (repR trig tt block true u) = isPfxOf p u ∧
      (isPfxOf p u = true →
        repR trig tt block true u =
          p ++ repR trig tt block true (u.drop p.length)) := by
  intro p
  induction p with
  | nil =>
    intro _ u
    refine ⟨rfl, fun _ => ?_⟩
    simp
  | cons d p' ih =>
    intro hw u
    cases u with
    | nil =>
      refine ⟨rfl, fun hp => ?_⟩
      cases hp
    | cons e u' =>
      rw [repR_cons_of_not_trig (by simp)]
      by_cases hde : d = e
      · subst hde
        rw [hw d (List.mem_cons_self _ _)]
        constructor
        · rw [isPfxOf_cons_eq, isPfxOf_cons_eq]
          exact (ih (fun x hx => hw x (List.mem_cons_of_mem _ hx)) u').1
        · intro hp
          rw [isPfxOf_cons_eq] at hp
          have h2 := (ih (fun x hx => hw x (List.mem_cons_of_mem _ hx)) u').2 hp
          rw [h2]
          rfl
      · constructor
        · rw [isPfxOf_cons_ne hde, isPfxOf_cons_ne hde]
        · intro hp
          rw [isPfxOf_cons_ne hde] at hp
          cases hp

theorem holeTail_match_repR (trig : Char) (tt : Str → Option Str) (block : Str)
    (t : Str) :
    (match repR trig tt block true t with
      | [] => some ([] : Str)
      | c :: r3 => if c = 's' ∧ nextNonWord r3 = true then some r3
          else if (!isWordChar c) = true then some (c :: r3) else none) =
    (match t with
      | [] => some ([] : Str)
      | c :: r3 => if c = 's' ∧ nextNonWord r3 = true then some r3
          else if (!isWordChar c) = true then some (c :: r3) else none).map
      (repR trig tt block true) := by
  cases t with
  | nil => rfl
  | cons c1 u' =>
    rw [repR_cons_of_not_trig (by simp)]
    show (if c1 = 's' ∧ nextNonWord (repR trig tt block (isWordChar c1) u') = true
        then some (repR trig tt block (isWordChar c1) u')
        else if (!isWordChar c1) = true
          then some (c1 :: repR trig tt block (isWordChar c1) u') else none) =
      Option.map (repR trig tt block true)
        (if c1 = 's' ∧ nextNonWord u' = true then some u'
         else if (!isWordChar c1) = true then some (c1 :: u') else none)
    by_cases h1 : (c1 = 's' ∧ nextNonWord u' = true)
    · rcases h1 with ⟨rfl, hnw⟩
      rw [show isWordChar 's' = true from by decide]
      rw [if_pos ⟨rfl, by rw [nextNonWord_repR]; exact hnw⟩, if_pos ⟨rfl, hnw⟩]
      rfl
    · have h1x : ¬(c1 = 's' ∧
          nextNonWord (repR trig tt block (isWordChar c1) u') = true) := by
        rintro ⟨rfl, hnw2⟩
        rw [show isWordChar 's' = true from by decide, nextNonWord_repR] at hnw2
        exact h1 ⟨rfl, hnw2⟩
      rw [if_neg h1x, if_neg h1]
      by_cases h2 : (!isWordChar c1) = true
      · rw [if_pos h2, if_pos h2]
        show some (c1 :: repR trig tt block (isWordChar c1) u') =
          some (repR trig tt block true (c1 :: u'))
        rw [repR_cons_of_not_trig (by simp)]
      · rw [if_neg h2, if_neg h2]
        rfl

theorem tryHoleTail_cons_h (trig : Char) (tt : Str → Option Str) (block : Str)
    (cs' : Str) :
    tryHoleTail ('h' :: repR trig tt block true cs') =
      (tryHoleTail ('h' :: cs')).map (repR trig tt block true) := by
  have hpfx := isPfxOf_repR_true trig tt block (str "ole") (by decide) cs'
  unfold tryHoleTail
  rw [List.dropWhile_cons_of_neg (by decide), List.dropWhile_cons_of_neg (by decide)]
  rw [str_hole_cons, isPfxOf_cons_eq, isPfxOf_cons_eq]
  by_cases hp : isPfxOf (str "ole") cs' = true
  · rw [if_pos (hpfx.1.trans hp), if_pos hp]
    have hd1 : (('h' :: repR trig tt block true cs') : Str).drop 4 =
        repR trig tt block true (cs'.drop 3) := by
      show (repR trig tt block true cs').drop 3 = _
      rw [hpfx.2 hp]
      show List.drop (str "ole").length
          (str "ole" ++ repR trig tt block true (cs'.drop 3)) =
        repR trig tt block true (cs'.drop 3)
      exact List.drop_left _ _
    rw [hd1]
    have hd2 : (('h' :: cs') : Str).drop 4 = cs'.drop 3 := rfl
    rw [hd2]
    exact holeTail_match_repR trig tt block (cs'.drop 3)
  · rw [if_neg (fun h => hp (hpfx.1.symm.trans h)), if_neg hp]
    rfl

theorem tryAfter18_cons_ne {c : Char} {l : Str} (h : c ≠ '8') :
    tryAfter18 (c :: l) = none := by
  unfold tryAfter18
  split
  · next l' heq =>
    rw [List.cons.injEq] at heq
    exact absurd heq.1 h
  · rfl

theorem tryHoleTail_repR (trig : Char) (tt : Str → Option Str) (bt : Str)
    (hsuf : ∀ l r, tt l = some r → r <:+ l)
    (hsp : isReSpace trig = false) (hh : trig ≠ 'h') :
    ∀ (cs : Str) (v : Bool),
      tryHoleTail (repR trig tt (trig :: bt) v cs) =
        (tryHoleTail cs).map (repR trig tt (trig :: bt) true) := by
  intro cs
  induction cs with
  | nil => intro v; rfl
  | cons c cs' ih =>
    intro v
    by_cases hspc : isReSpace c = true
    · have hctrig : ¬(c = trig ∧ v = false) := by
        rintro ⟨rfl, -⟩
        rw [hspc] at hsp
        cases hsp
      rw [repR_cons_of_not_trig hctrig, tryHoleTail_cons_space hspc,
        tryHoleTail_cons_space hspc, isWordChar_of_reSpace hspc]
      exact ih false
    · have hspc' : isReSpace c = false := by simpa using hspc
      by_cases hc : (c = trig ∧ v = false)
      · have hcne : c ≠ 'h' := fun he => hh (hc.1.symm.trans he)
        rcases h2 : tt cs' with _ | r
        · rw [hc.2, repR_cons_of_fail hc.1 h2]
          rw [tryHoleTail_cons_noth hspc' hcne, tryHoleTail_cons_noth hspc' hcne]
          rfl
        · rw [hc.2, repR_cons_of_match hsuf hc.1 h2, List.cons_append]
          rw [tryHoleTail_cons_noth hsp hh, tryHoleTail_cons_noth hspc' hcne]
          rfl
      · rw [repR_cons_of_not_trig hc]
        by_cases hch : c = 'h'
        · subst hch
          rw [show isWordChar 'h' = true from by decide]
          exact tryHoleTail_cons_h trig tt (trig :: bt) cs'
        · rw [tryHoleTail_cons_noth hspc' hch, tryHoleTail_cons_noth hspc' hch]
          rfl

theorem tryAfter18_repR (trig : Char) (tt : Str → Option Str) (bt : Str)
    (hsuf : ∀ l r, tt l = some r → r <:+ l)
    (hsp : isReSpace trig = false) (hh : trig ≠ 'h') (h8 : trig ≠ '8') :
    ∀ (cs : Str) (v : Bool),
      tryAfter18 (repR trig tt (trig :: bt) v cs) =
        (tryAfter18 cs).map (repR trig tt (trig :: bt) true) := by
  intro cs v
  cases cs with
  | nil => rfl
  | cons c t =>
    by_cases hc : (c = trig ∧ v = false)
    · have hc8 : c ≠ '8' := fun he => h8 (hc.1.symm.trans he)
      rcases h2 : tt t with _ | r
      · rw [hc.2, repR_cons_of_fail hc.1 h2]
        rw [tryAfter18_cons_ne hc8, tryAfter18_cons_ne hc8]
        rfl
      · rw [hc.2, repR_cons_of_match hsuf hc.1 h2, List.cons_append]
        rw [tryAfter18_cons_ne h8, tryAfter18_cons_ne hc8]
        rfl
    · rw [repR_cons_of_not_trig hc]
      by_cases hc8 : c = '8'
      · subst hc8
        rw [show isWordChar '8' = true from by decide]
        show tryHoleTail (repR trig tt (trig :: bt) true t) =
          (tryHoleTail t).map (repR trig tt (trig :: bt) true)
        exact tryHoleTail_repR trig tt bt hsuf hsp hh t true
      · rw [tryAfter18_cons_ne hc8, tryAfter18_cons_ne hc8]
        rfl

theorem block9_cons : str "9 holes" = '9' :: str " holes" := rfl

theorem block18_cons : str "18 holes" = '1' :: str "8 holes" := rfl

theorem tryHoleTail_rep9 (cs : Str) (v : Bool) :
    tryHoleTail (rep9 v cs) = (tryHoleTail cs).map (rep9 true) := by
  rw [rep9_eq_repR, block9_cons]
  exact tryHoleTail_repR '9' tryAfter9 (str " holes")
    (fun _ _ h => tryAfter9_suffix h) (by decide) (by decide) cs v

theorem tryHoleTail_rep18 (cs : Str) (v : Bool) :
    tryHoleTail (rep18 v cs) = (tryHoleTail cs).map (rep18 true) := by
  rw [rep18_eq_repR, block18_cons]
  exact tryHoleTail_repR '1' tryAfter18 (str "8 holes")
    (fun _ _ h => tryAfter18_suffix h) (by decide) (by decide) cs v

theorem tryAfter9_rep9 (cs : Str) (v : Bool) :
    tryAfter9 (rep9 v cs) = (tryAfter9 cs).map (rep9 true) :=
  tryHoleTail_rep9 cs v

theorem tryAfter9_rep18 (cs : Str) (v : Bool) :
    tryAfter9 (rep18 v cs) = (tryAfter9 cs).map (rep18 true) :=
  tryHoleTail_rep18 cs v

theorem tryAfter18_rep9 (cs : Str) (v : Bool) :
    tryAfter18 (rep9 v cs) = (tryAfter18 cs).map (rep9 true) := by
  rw [rep9_eq_repR, block9_cons]
  exact tryAfter18_repR '9' tryAfter9 (str " holes")
    (fun _ _ h => tryAfter9_suffix h) (by decide) (by decide) (by decide) cs v

theorem tryAfter18_rep18 (cs : Str) (v : Bool) :
    tryAfter18 (rep18 v cs) = (tryAfter18 cs).map (rep18 true) := by
  rw [rep18_eq_repR, block18_cons]
  exact tryAfter18_repR '1' tryAfter18 (str "8 holes")
    (fun _ _ h => tryAfter18_suffix h) (by decide) (by decide) (by decide) cs v

theorem tryHoleTail_boundary {l r : Str} (h : tryHoleTail l = some r) :
    nextNonWord r = true := by
  unfold tryHoleTail at h
  by_cases hp : isPfxOf (str "hole") (l.dropWhile isReSpace) = true
  · rw [if_pos hp] at h
    rcases hd : (l.dropWhile isReSpace).drop 4 with _ | ⟨c, r3⟩
    · rw [hd] at h
      cases h
      rfl
    · rw [hd] at h
      have h3 : (if c = 's' ∧ nextNonWord r3 = true then some r3
          else if (!isWordChar c) = true then some (c :: r3) else none) =
          some r := h
      by_cases h1 : (c = 's' ∧ nextNonWord r3 = true)
      · rw [if_pos h1] at h3
        cases h3
        exact h1.2
      · rw [if_neg h1] at h3
        by_cases h2 : (!isWordChar c) = true
        · rw [if_pos h2] at h3
          cases h3
          exact h2
        · rw [if_neg h2] at h3
          cases h3
  · rw [if_neg hp] at h
    cases h

theorem tryAfter9_boundary {l r : Str} (h : tryAfter9 l = some r) :
    nextNonWord r = true := tryHoleTail_boundary h

theorem tryAfter18_boundary {l r : Str} (h : tryAfter18 l = some r) :
    nextNonWord r = true := by
  unfold tryAfter18 at h
  split at h
  · exact tryHoleTail_boundary h
  · cases h

theorem rep9_cons_of_not_trig {c : Char} {v : Bool} {cs : Str}
    (hc : ¬(c = '9' ∧ v = false)) :
    rep9 v (c :: cs) = c :: rep9 (isWordChar c) cs := by
  rw [rep9_eq_repR]
  exact repR_cons_of_not_trig hc

theorem rep9_cons_of_fail {c : Char} {cs : Str} (hc : c = '9')
    (h2 : tryAfter9 cs = none) :
    rep9 false (c :: cs) = c :: rep9 (isWordChar c) cs := by
  rw [rep9_eq_repR]
  exact repR_cons_of_fail hc h2

theorem rep9_cons_of_match {c : Char} {cs r : Str} (hc : c = '9')
    (h2 : tryAfter9 cs = some r) :
    rep9 false (c :: cs) = str "9 holes" ++ rep9 true r := by
  rw [rep9_eq_repR]
  exact repR_cons_of_match (fun _ _ h => tryAfter9_suffix h) hc h2

theorem rep18_cons_of_not_trig {c : Char} {v : Bool} {cs : Str}
    (hc : ¬(c = '1' ∧ v = false)) :
    rep18 v (c :: cs) = c :: rep18 (isWordChar c) cs := by
  rw [rep18_eq_repR]
  exact repR_cons_of_not_trig hc

theorem rep18_cons_of_fail {c : Char} {cs : Str} (hc : c = '1')
    (h2 : tryAfter18 cs = none) :
    rep18 false (c :: cs) = c :: rep18 (isWordChar c) cs := by
  rw [rep18_eq_repR]
  exact repR_cons_of_fail hc h2

theorem rep18_cons_of_match {c : Char} {cs r : Str} (hc : c = '1')
    (h2 : tryAfter18 cs = some r) :
    rep18 false (c :: cs) = str "18 holes" ++ rep18 true r := by
  rw [rep18_eq_repR]
  exact repR_cons_of_match (fun _ _ h => tryAfter18_suffix h) hc h2

theorem nextNonWord_rep9 (Y : Str) :
    nextNonWord (rep9 true Y) = nextNonWord Y := by
  rw [rep9_eq_repR]
  exact nextNonWord_repR _ _ _ Y

theorem nextNonWord_rep18 (Y : Str) :
    nextNonWord (rep18 true Y) = nextNonWord Y := by
  rw [rep18_eq_repR]
  exact nextNonWord_repR _ _ _ Y

theorem tryHoleTail_sp_holes (Y : Str) (hY : nextNonWord Y = true) :
    tryHoleTail (str " holes" ++ Y) = some Y := by
  unfold tryHoleTail
  rw [show ((str " holes" ++ Y).dropWhile isReSpace) =
      'h' :: 'o' :: 'l' :: 'e' :: 's' :: Y from ?_]
  · rw [if_pos (by rfl)]
    show (if 's' = 's' ∧ nextNonWord Y = true then some Y
        else if (!isWordChar 's') = true then some ('s' :: Y) else none) = some Y
    rw [if_pos ⟨rfl, hY⟩]
  · show (' ' :: ('h' :: 'o' :: 'l' :: 'e' :: 's' :: Y)).dropWhile isReSpace = _
    rw [List.dropWhile_cons_of_pos (by decide),
      List.dropWhile_cons_of_neg (by decide)]

theorem tryAfter18_8holes (Y : Str) (hY : nextNonWord Y = true) :
    tryAfter18 (str "8 holes" ++ Y) = some Y := by
  show tryHoleTail (str " holes" ++ Y) = some Y
  exact tryHoleTail_sp_holes Y hY

theorem rep18_block9 (v : Bool) (Y : Str) :
    rep18 v (str "9 holes" ++ Y) = str "9 holes" ++ rep18 true Y := by
  show rep18 v ('9' :: ' ' :: 'h' :: 'o' :: 'l' :: 'e' :: 's' :: Y) = _
  rw [rep18_cons_of_not_trig (fun hx => absurd hx.1 (by decide)),
    rep18_cons_of_not_trig (fun hx => absurd hx.1 (by decide)),
    rep18_cons_of_not_trig (fun hx => absurd hx.1 (by decide)),
    rep18_cons_of_not_trig (fun hx => absurd hx.1 (by decide)),
    rep18_cons_of_not_trig (fun hx => absurd hx.1 (by decide)),
    rep18_cons_of_not_trig (fun hx => absurd hx.1 (by decide)),
    rep18_cons_of_not_trig (fun hx => absurd hx.1 (by decide)),
    show isWordChar 's' = true from by decide]
  rfl

theorem rep9_block18 (v : Bool) (Y : Str) :
    rep9 v (str "18 holes" ++ Y) = str "18 holes" ++ rep9 true Y := by
  show rep9 v ('1' :: '8' :: ' ' :: 'h' :: 'o' :: 'l' :: 'e' :: 's' :: Y) = _
  rw [rep9_cons_of_not_trig (fun hx => absurd hx.1 (by decide)),
    rep9_cons_of_not_trig (fun hx => absurd hx.1 (by decide)),
    rep9_cons_of_not_trig (fun hx => absurd hx.1 (by decide)),
    rep9_cons_of_not_trig (fun hx => absurd hx.1 (by decide)),
    rep9_cons_of_not_trig (fun hx => absurd hx.1 (by decide)),
    rep9_cons_of_not_trig (fun hx => absurd hx.1 (by decide)),
    rep9_cons_of_not_trig (fun hx => absurd hx.1 (by decide)),
    rep9_cons_of_not_trig (fun hx => absurd hx.1 (by decide)),
    show isWordChar 's' = true from by decide]
  rfl

theorem rep9_block9 (Y : Str) (hY : nextNonWord Y = true) :
    rep9 false (str "9 holes" ++ Y) = str "9 holes" ++ rep9 true Y := by
  show rep9 false ('9' :: (str " holes" ++ Y)) = _
  rw [rep9_cons_of_match rfl (tryHoleTail_sp_holes Y hY)]

theorem rep18_block18 (Y : Str) (hY : nextNonWord Y = true) :
    rep18 false (str "18 holes" ++ Y) = str "18 holes" ++ rep18 true Y := by
  show rep18 false ('1' :: (str "8 holes" ++ Y)) = _
  rw [rep18_cons_of_match rfl (tryAfter18_8holes Y hY)]

/-- Self-stability of the 18-hole replacement scanner: replacing again is the
identity, because every replaced span reads `18 holes` followed by a word
boundary and is rewritten to itself. -/
theorem rep18_stable : ∀ n (s : Str), s.length ≤ n → ∀ v,
    rep18 v (rep18 v s) = rep18 v s := by
  intro n
  induction n with
  | zero =>
    intro s hs v
    rw [List.length_eq_zero.mp (Nat.le_zero.mp hs)]
    rfl
  | succ m ih =>
    intro s hs v
    cases s with
    | nil => rfl
    | cons c cs =>
      have hcs : cs.length ≤ m := by
        simp only [List.length_cons] at hs
        omega
      by_cases hc : (c = '1' ∧ v = false)
      · obtain ⟨rfl, rfl⟩ := hc
        rcases h2 : tryAfter18 cs with _ | r
        · rw [rep18_cons_of_fail rfl h2,
            show isWordChar '1' = true from by decide]
          have htr : tryAfter18 (rep18 true cs) = none := by
            rw [tryAfter18_rep18, h2]
            rfl
          rw [rep18_cons_of_fail rfl htr,
            show isWordChar '1' = true from by decide]
          rw [ih cs hcs true]
        · rw [rep18_cons_of_match rfl h2]
          have hnw : nextNonWord (rep18 true r) = true := by
            rw [nextNonWord_rep18]
            exact tryAfter18_boundary h2
          rw [rep18_block18 _ hnw]
          rw [ih r (le_trans (tryAfter18_suffix h2).length_le hcs) true]
      · rw [rep18_cons_of_not_trig hc, rep18_cons_of_not_trig hc]
        rw [ih cs hcs (isWordChar c)]

/-- The 9-hole scanner is the identity on the output of the canonicalization
pipeline `rep18 ∘ rep9`. -/
theorem rep9_sim : ∀ n (s : Str), s.length ≤ n → ∀ v,
    rep9 v (rep18 v (rep9 v s)) = rep18 v (rep9 v s) := by
  intro n
  induction n with
  | zero =>
    intro s hs v
    rw [List.length_eq_zero.mp (Nat.le_zero.mp hs)]
    rfl
  | succ m ih =>
    intro s hs v
    cases s with
    | nil => rfl
    | cons c cs =>
      have hcs : cs.length ≤ m := by
        simp only [List.length_cons] at hs
        omega
      by_cases hc9 : (c = '9' ∧ v = false)
      · obtain ⟨rfl, rfl⟩ := hc9
        rcases h2 : tryAfter9 cs with _ | r
        · rw [rep9_cons_of_fail rfl h2,
            show isWordChar '9' = true from by decide]
          rw [rep18_cons_of_not_trig (fun hx => absurd hx.1 (by decide)),
            show isWordChar '9' = true from by decide]
          have htr : tryAfter9 (rep18 true (rep9 true cs)) = none := by
            rw [tryAfter9_rep18, tryAfter9_rep9, h2]
            rfl
          rw [rep9_cons_of_fail rfl htr,
            show isWordChar '9' = true from by decide]
          rw [ih cs hcs true]
        · rw [rep9_cons_of_match rfl h2, rep18_block9]
          have hnw : nextNonWord (rep18 true (rep9 true r)) = true := by
            rw [nextNonWord_rep18, nextNonWord_rep9]
            exact tryAfter9_boundary h2
          rw [rep9_block9 _ hnw]
          rw [ih r (le_trans (tryAfter9_suffix h2).length_le hcs) true]
      · rw [rep9_cons_of_not_trig hc9]
        by_cases hc18 : (c = '1' ∧ v = false)
        · obtain ⟨rfl, rfl⟩ := hc18
          rw [show isWordChar '1' = true from by decide]
          rcases h3 : tryAfter18 (rep9 true cs) with _ | R
          · rw [rep18_cons_of_fail rfl h3,
              show isWordChar '1' = true from by decide]
            rw [rep9_cons_of_not_trig (fun hx => absurd hx.1 (by decide)),
              show isWordChar '1' = true from by decide]
            rw [ih cs hcs true]
          · have h3t := h3
            rw [tryAfter18_rep9] at h3t
            rcases h4 : tryAfter18 cs with _ | r0
            · rw [h4] at h3t
              cases h3t
            · rw [h4, Option.map_some'] at h3t
              cases h3t
              rw [rep18_cons_of_match rfl h3, rep9_block18]
              rw [ih r0 (le_trans (tryAfter18_suffix h4).length_le hcs) true]
        · rw [rep18_cons_of_not_trig hc18, rep9_cons_of_not_trig hc9]
          rw [ih cs hcs (isWordChar c)]

/-- Canonicalization (`rep18 ∘ rep9`, root.go:1275-1277) is idempotent. -/
theorem canonicalize_idem (s : Str) :
    canonicalize (canonicalize s) = canonicalize s := by
  unfold canonicalize
  have h1 : rep9 false (rep18 false (rep9 false s)) = rep18 false (rep9 false s) :=
    rep9_sim s.length s le_rfl false
  rw [h1]
  exact rep18_stable (rep9 false s).length (rep9 false s) le_rfl false

/-!
The scanners preserve trimmedness (no white space at either end), lower-case
fixedness, and `cleanB`.
-/

theorem headOK_append_left {a b : Str} (ha : a ≠ []) :
    headOK (a ++ b) = headOK a := by
  cases a with
  | nil => exact absurd rfl ha
  | cons c t => rfl

theorem lastOK_cons {c : Char} {X : Str} (hX : X ≠ []) :
    lastOK (c :: X) = lastOK X := by
  unfold lastOK
  rw [List.reverse_cons]
  exact headOK_append_left (fun h => hX (List.reverse_eq_nil_iff.mp h))

theorem lastOK_of_cons {c : Char} {X : Str} (h : lastOK (c :: X) = true)
    (hX : X ≠ []) : lastOK X = true := (lastOK_cons hX) ▸ h

theorem lastOK_append {a X : Str} (hX : X ≠ []) :
    lastOK (a ++ X) = lastOK X := by
  unfold lastOK
  rw [List.reverse_append]
  exact headOK_append_left (fun h => hX (List.reverse_eq_nil_iff.mp h))

theorem headOK_repR {trig : Char} {tt : Str → Option Str} {bt : Str}
    (hsuf : ∀ l r, tt l = some r → r <:+ l)
    (htr : isGoSpace trig = false) {v : Bool} {s : Str} (h : headOK s = true) :
    headOK (repR trig tt (trig :: bt) v s) = true := by
  cases s with
  | nil => rfl
  | cons c cs =>
    by_cases hc : (c = trig ∧ v = false)
    · rcases h2 : tt cs with _ | r
      · rw [hc.2, repR_cons_of_fail hc.1 h2]
        exact h
      · rw [hc.2, repR_cons_of_match hsuf hc.1 h2, List.cons_append]
        show (!isGoSpace trig) = true
        rw [htr]
        rfl
    · rw [repR_cons_of_not_trig hc]
      exact h

theorem lastOK_repR {trig : Char} {tt : Str → Option Str} {block : Str}
    (hsuf : ∀ l r, tt l = some r → r <:+ l)
    (hbl : lastOK block = true) (hbne : block ≠ []) :
    ∀ n (s : Str), s.length ≤ n → ∀ v, lastOK s = true →
      lastOK (repR trig tt block v s) = true := by
  intro n
  induction n with
  | zero =>
    intro s hs v h
    rw [List.length_eq_zero.mp (Nat.le_zero.mp hs)]
    rfl
  | succ m ih =>
    intro s hs v h
    cases s with
    | nil => rfl
    | cons c cs =>
      have hcs : cs.length ≤ m := by
        simp only [List.length_cons] at hs
        omega
      by_cases hc : (c = trig ∧ v = false)
      · rcases h2 : tt cs with _ | r
        · rw [hc.2, repR_cons_of_fail hc.1 h2]
          cases cs with
          | nil => exact h
          | cons d t =>
            rw [lastOK_cons (repR_ne_nil hsuf hbne (by simp))]
            exact ih _ hcs _ (lastOK_of_cons h (by simp))
        · rw [hc.2, repR_cons_of_match hsuf hc.1 h2]
          rcases hr : r with _ | ⟨e, u⟩
          · rw [show repR trig tt block true ([] : Str) = [] from rfl,
              List.append_nil]
            exact hbl
          · rw [← hr]
            have hXne : repR trig tt block true r ≠ [] :=
              repR_ne_nil hsuf hbne (by rw [hr]; simp)
            rw [lastOK_append hXne]
            apply ih r (le_trans (hsuf cs r h2).length_le hcs) true
            exact lastOK_suffix ((hsuf cs r h2).trans (List.suffix_cons c cs)) h
      · rw [repR_cons_of_not_trig hc]
        cases cs with
        | nil => exact h
        | cons d t =>
          rw [lastOK_cons (repR_ne_nil hsuf hbne (by simp))]
          exact ih _ hcs _ (lastOK_of_cons h (by simp))

theorem not_contains_iff {l : Str} {c : Char} :
    (!(l.contains c)) = true ↔ c ∉ l := by
  simp [List.contains]

theorem cleanB_skip_all : ∀ {a : Str}, '(' ∉ a → ∀ X, cleanB (a ++ X) = cleanB X
  | [], _, X => rfl
  | c :: a', h, X => by
    rw [List.cons_append,
      cleanB_cons_ne (fun he => h (he ▸ List.mem_cons_self c a'))]
    exact cleanB_skip_all (fun hm => h (List.mem_cons_of_mem _ hm)) X

theorem noCloseDrop_repR {trig : Char} {tt : Str → Option Str} {bt : Str}
    (hsuf : ∀ l r, tt l = some r → r <:+ l)
    (hbp : ')' ∉ (trig :: bt : Str)) :
    ∀ (cs : Str) (v : Bool), ')' ∉ cs.drop 1 →
      ')' ∉ (repR trig tt (trig :: bt) v cs).drop 1 := by
  intro cs v h
  cases cs with
  | nil => exact h
  | cons d t =>
    have ht : ')' ∉ t := h
    by_cases hc : (d = trig ∧ v = false)
    · rcases h2 : tt t with _ | r
      · rw [hc.2, repR_cons_of_fail hc.1 h2]
        show ')' ∉ repR trig tt (trig :: bt) (isWordChar d) t
        intro hm
        rcases mem_repR hsuf t.length t le_rfl _ hm with h1 | h1
        · exact ht h1
        · exact hbp h1
      · rw [hc.2, repR_cons_of_match hsuf hc.1 h2, List.cons_append]
        show ')' ∉ bt ++ repR trig tt (trig :: bt) true r
        intro hm
        rcases List.mem_append.mp hm with h1 | h1
        · exact hbp (List.mem_cons_of_mem _ h1)
        · rcases mem_repR hsuf r.length r le_rfl true h1 with h3 | h3
          · exact ht ((hsuf t r h2).subset h3)
          · exact hbp h3
    · rw [repR_cons_of_not_trig hc]
      show ')' ∉ repR trig tt (trig :: bt) (isWordChar d) t
      intro hm
      rcases mem_repR hsuf t.length t le_rfl _ hm with h1 | h1
      · exact ht h1
      · exact hbp h1

theorem cleanB_repR {trig : Char} {tt : Str → Option Str} {bt : Str}
    (hsuf : ∀ l r, tt l = some r → r <:+ l)
    (hbp1 : '(' ∉ (trig :: bt : Str)) (hbp2 : ')' ∉ (trig :: bt : Str))
    (htp : trig ≠ '(') :
    ∀ n (s : Str), s.length ≤ n → ∀ v, cleanB s = true →
      cleanB (repR trig tt (trig :: bt) v s) = true := by
  intro n
  induction n with
  | zero =>
    intro s hs v h
    rw [List.length_eq_zero.mp (Nat.le_zero.mp hs)]
    rfl
  | succ m ih =>
    intro s hs v h
    cases s with
    | nil => rfl
    | cons c cs =>
      have hcs : cs.length ≤ m := by
        simp only [List.length_cons] at hs
        omega
      by_cases hcp : c = '('
      · subst hcp
        rw [cleanB_cons_paren] at h
        have h' : ')' ∉ cs.drop 1 := not_contains_iff.mp h
        rw [repR_cons_of_not_trig (fun hx => htp hx.1.symm)]
        rw [cleanB_cons_paren]
        exact not_contains_iff.mpr (noCloseDrop_repR hsuf hbp2 cs _ h')
      · rw [cleanB_cons_ne hcp] at h
        by_cases hc : (c = trig ∧ v = false)
        · rcases h2 : tt cs with _ | r
          · rw [hc.2, repR_cons_of_fail hc.1 h2, cleanB_cons_ne hcp]
            exact ih cs hcs _ h
          · rw [hc.2, repR_cons_of_match hsuf hc.1 h2]
            rw [cleanB_skip_all hbp1]
            rcases hsuf cs r h2 with ⟨a, ha⟩
            exact ih r (le_trans (hsuf cs r h2).length_le hcs) true
              (cleanB_append_right (ha ▸ h))
        · rw [repR_cons_of_not_trig hc, cleanB_cons_ne hcp]
          exact ih cs hcs _ h

theorem psGo_none_cons_ne {d : Char} {t : Str} (hd : d ≠ '(') :
    psGo none (d :: t) = d :: psGo none t := by
  simp only [psGo]
  rw [if_neg hd]

theorem psGo_none_cons_paren (t : Str) :
    psGo none ('(' :: t) = psGo (some []) t := by
  simp only [psGo, if_true]

theorem psGo_some_close (buf t : Str) :
    psGo (some buf) (')' :: t) =
      if buf.isEmpty then psGo (some [')']) t else psGo none t := by
  simp only [psGo, if_true]

theorem psGo_some_cons_ne {d : Char} {buf t : Str} (hd : d ≠ ')') :
    psGo (some buf) (d :: t) = psGo (some (buf ++ [d])) t := by
  simp only [psGo]
  rw [if_neg hd]

theorem mem_psGo : ∀ (s : Str) (st : Option Str) (c : Char), c ∈ psGo st s →
    c ∈ s ∨ c = '(' ∨ (∃ buf, st = some buf ∧ c ∈ buf) := by
  intro s
  induction s with
  | nil =>
    intro st c hc
    cases st with
    | none => cases hc
    | some buf =>
      rcases List.mem_cons.mp hc with rfl | h
      · exact Or.inr (Or.inl rfl)
      · exact Or.inr (Or.inr ⟨buf, rfl, h⟩)
  | cons d t ih =>
    intro st c hc
    cases st with
    | none =>
      by_cases hd : d = '('
      · subst hd
        rw [psGo_none_cons_paren] at hc
        rcases ih _ c hc with h | h | ⟨buf, hbuf, h⟩
        · exact Or.inl (List.mem_cons_of_mem _ h)
        · exact Or.inr (Or.inl h)
        · cases hbuf
          cases h
      · rw [psGo_none_cons_ne hd] at hc
        rcases List.mem_cons.mp hc with rfl | h
        · exact Or.inl (List.mem_cons_self _ _)
        · rcases ih none c h with h2 | h2 | ⟨_, hb, _⟩
          · exact Or.inl (List.mem_cons_of_mem _ h2)
          · exact Or.inr (Or.inl h2)
          · cases hb
    | some buf =>
      by_cases hd : d = ')'
      · subst hd
        rw [psGo_some_close] at hc
        by_cases hbe : buf.isEmpty = true
        · rw [if_pos hbe] at hc
          rcases ih _ c hc with h | h | ⟨buf2, hb2, h⟩
          · exact Or.inl (List.mem_cons_of_mem _ h)
          · exact Or.inr (Or.inl h)
          · cases hb2
            rcases List.mem_singleton.mp h with rfl
            exact Or.inl (List.mem_cons_self _ _)
        · rw [if_neg hbe] at hc
          rcases ih none c hc with h | h | ⟨_, hb, _⟩
          · exact Or.inl (List.mem_cons_of_mem _ h)
          · exact Or.inr (Or.inl h)
          · cases hb
      · rw [psGo_some_cons_ne hd] at hc
        rcases ih _ c hc with h | h | ⟨buf2, hb2, h⟩
        · exact Or.inl (List.mem_cons_of_mem _ h)
        · exact Or.inr (Or.inl h)
        · cases hb2
          rcases List.mem_append.mp h with h | h
          · exact Or.inr (Or.inr ⟨buf, rfl, h⟩)
          · rcases List.mem_singleton.mp h with rfl
            exact Or.inl (List.mem_cons_self _ _)

theorem mem_trimSpace {s : Str} {c : Char} (h : c ∈ trimSpace s) : c ∈ s := by
  unfold trimSpace at h
  have h1 := List.mem_reverse.mp h
  have h2 := (List.dropWhile_suffix isGoSpace).subset h1
  have h3 := List.mem_reverse.mp h2
  exact (List.dropWhile_suffix isGoSpace).subset h3

/-!
The three invariants of a cleaned name (trimmed, lower-case fixed,
parenthesis fixed), and their preservation by canonicalization.
-/

theorem cleanName_headOK (L : Str) : headOK (cleanName L) = true :=
  headOK_trimSpace _

theorem cleanName_lastOK (L : Str) : lastOK (cleanName L) = true :=
  lastOK_trimSpace _

theorem cleanName_lowFixed (L : Str) : ∀ c ∈ cleanName L, lowChar c = c := by
  intro c hc
  unfold cleanName at hc
  have h1 := mem_trimSpace hc
  rcases mem_psGo _ none c h1 with h2 | h2 | ⟨buf, hb, _⟩
  · exact mem_lowerStr_fixed h2
  · subst h2
    decide
  · cases hb

theorem cleanName_cleanB (L : Str) : cleanB (cleanName L) = true :=
  cleanB_trimSpace (cleanB_parenStrip _)

theorem headOK_canonicalize {s : Str} (h : headOK s = true) :
    headOK (canonicalize s) = true := by
  unfold canonicalize
  rw [rep18_eq_repR, block18_cons]
  apply headOK_repR (fun _ _ hx => tryAfter18_suffix hx) (by decide)
  rw [rep9_eq_repR, block9_cons]
  exact headOK_repR (fun _ _ hx => tryAfter9_suffix hx) (by decide) h

theorem lastOK_canonicalize {s : Str} (h : lastOK s = true) :
    lastOK (canonicalize s) = true := by
  unfold canonicalize
  rw [rep18_eq_repR]
  apply lastOK_repR (fun _ _ hx => tryAfter18_suffix hx) (by decide) (by decide)
    _ _ le_rfl
  rw [rep9_eq_repR]
  exact lastOK_repR (fun _ _ hx => tryAfter9_suffix hx) (by decide) (by decide)
    _ _ le_rfl _ h

theorem lowFixed_canonicalize {s : Str} (h : ∀ c ∈ s, lowChar c = c) :
    ∀ c ∈ canonicalize s, lowChar c = c := by
  intro c hc
  unfold canonicalize at hc
  rw [rep18_eq_repR] at hc
  rcases mem_repR (fun _ _ hx => tryAfter18_suffix hx) _ _ le_rfl _ hc
    with h1 | h1
  · rw [rep9_eq_repR] at h1
    rcases mem_repR (fun _ _ hx => tryAfter9_suffix hx) _ _ le_rfl _ h1
      with h2 | h2
    · exact h c h2
    · have hbl : ∀ d ∈ str "9 holes", lowChar d = d := by decide
      exact hbl c h2
  · have hbl : ∀ d ∈ str "18 holes", lowChar d = d := by decide
    exact hbl c h1

theorem cleanB_canonicalize {s : Str} (h : cleanB s = true) :
    cleanB (canonicalize s) = true := by
  unfold canonicalize
  rw [rep18_eq_repR, block18_cons, rep9_eq_repR, block9_cons]
  apply cleanB_repR (fun _ _ hx => tryAfter18_suffix hx) (by decide) (by decide)
    (by decide) _ _ le_rfl
  exact cleanB_repR (fun _ _ hx => tryAfter9_suffix hx) (by decide) (by decide)
    (by decide) _ _ le_rfl _ h

/-!
Branch equations of `normaliseCore` and the idempotence theorem.
-/

theorem normaliseCore_no_tokens {N : Str}
    (h9 : containsSub N (str "9 hole") = false)
    (h18 : containsSub N (str "18 hole") = false) :
    normaliseCore N = titleStr N := by
  simp only [normaliseCore]
  rw [h9, h18]
  simp

theorem normaliseCore_promo {N : Str}
    (hflag : ¬(containsSub N (str "9 hole") = false ∧
      containsSub N (str "18 hole") = false))
    (hfw : removeAllowed (removePairs false (fieldsStr (canonicalize N))) ≠ []) :
    normaliseCore N = titleStr (canonicalize N) := by
  simp only [normaliseCore]
  rw [if_neg hflag, if_neg hfw]

theorem normaliseCore_std9 {N : Str}
    (h9 : containsSub N (str "9 hole") = true)
    (hfw : removeAllowed (removePairs false (fieldsStr (canonicalize N))) = []) :
    normaliseCore N = str "9 Holes" := by
  simp only [normaliseCore]
  rw [h9, hfw]
  simp

theorem normaliseCore_std18 {N : Str}
    (h9 : containsSub N (str "9 hole") = false)
    (h18 : containsSub N (str "18 hole") = true)
    (hfw : removeAllowed (removePairs false (fieldsStr (canonicalize N))) = []) :
    normaliseCore N = str "18 Holes" := by
  simp only [normaliseCore]
  rw [h9, h18, hfw]
  simp

/-- The promo-label case of idempotence: when a token was detected but words
remain, the output is `strings.Title` of the canonicalized name; cleaning it
recovers the canonicalized name, and the second pass returns the same title
whether or not it detects tokens again, because canonicalization is
idempotent. -/
theorem normalise_promo_idem {N : Str}
    (hH : headOK N = true) (hLa : lastOK N = true)
    (hF : ∀ c ∈ N, lowChar c = c) (hCB : cleanB N = true)
    (hflag : ¬(containsSub N (str "9 hole") = false ∧
      containsSub N (str "18 hole") = false))
    (hfw : removeAllowed (removePairs false (fieldsStr (canonicalize N))) ≠ []) :
    normaliseGameName (normaliseCore N) = normaliseCore N := by
  rw [normaliseCore_promo hflag hfw]
  show normaliseCore (cleanName (titleStr (canonicalize N))) = _
  rw [cleanName_titleStr (headOK_canonicalize hH) (lastOK_canonicalize hLa)
    (lowFixed_canonicalize hF)
    (psGo_eq_self_of_cleanB (cleanB_canonicalize hCB))]
  by_cases hflag2 : (containsSub (canonicalize N) (str "9 hole") = false ∧
      containsSub (canonicalize N) (str "18 hole") = false)
  · exact normaliseCore_no_tokens hflag2.1 hflag2.2
  · have hfw2 : removeAllowed (removePairs false
        (fieldsStr (canonicalize (canonicalize N)))) ≠ [] := by
      rw [canonicalize_idem]
      exact hfw
    rw [normaliseCore_promo hflag2 hfw2, canonicalize_idem]

/-- For every raw label `L`, normalizing the canonical string produced by
`normaliseGameName L` yields `normaliseGameName L` again: the standard outputs
`9 Holes`/`18 Holes` are fixed points, and a promo output `Title(name)` cleans
back to `name`, whose canonicalization and final word list are unchanged on
the second pass. -/
theorem normaliseGameName_idem (L : Str) :
    normaliseGameName (normaliseGameName L) = normaliseGameName L := by
  have hH : headOK (cleanName L) = true := cleanName_headOK L
  have hLa : lastOK (cleanName L) = true := cleanName_lastOK L
  have hF : ∀ c ∈ cleanName L, lowChar c = c := cleanName_lowFixed L
  have hCB : cleanB (cleanName L) = true := cleanName_cleanB L
  have hP : parenStrip (cleanName L) = cleanName L := psGo_eq_self_of_cleanB hCB
  show normaliseGameName (normaliseCore (cleanName L)) = normaliseCore (cleanName L)
  by_cases h9 : containsSub (cleanName L) (str "9 hole") = true
  · by_cases hfw : removeAllowed (removePairs false
        (fieldsStr (canonicalize (cleanName L)))) = []
    · rw [normaliseCore_std9 h9 hfw]
      decide
    · have hflag : ¬(containsSub (cleanName L) (str "9 hole") = false ∧
          containsSub (cleanName L) (str "18 hole") = false) := by
        rintro ⟨hx, -⟩
        rw [h9] at hx
        cases hx
      exact normalise_promo_idem hH hLa hF hCB hflag hfw
  · have h9f : containsSub (cleanName L) (str "9 hole") = false := by
      simpa using h9
    by_cases h18 : containsSub (cleanName L) (str "18 hole") = true
    · by_cases hfw : removeAllowed (removePairs false
          (fieldsStr (canonicalize (cleanName L)))) = []
      · rw [normaliseCore_std18 h9f h18 hfw]
        decide
      · have hflag : ¬(containsSub (cleanName L) (str "9 hole") = false ∧
            containsSub (cleanName L) (str "18 hole") = false) := by
          rintro ⟨-, hx⟩
          rw [h18] at hx
          cases hx
        exact normalise_promo_idem hH hLa hF hCB hflag hfw
    · have h18f : containsSub (cleanName L) (str "18 hole") = false := by
        simpa using h18
      rw [normaliseCore_no_tokens h9f h18f]
      show normaliseCore (cleanName (titleStr (cleanName L))) = _
      rw [cleanName_titleStr hH hLa hF hP]
      exact normaliseCore_no_tokens h9f h18f

/-- C5: normalization is idempotent — `normaliseGameName (normaliseGameName L)
= normaliseGameName L` for every raw label `L` (root.go:1258-1321) — and in
particular the already-canonical label `9 Holes` normalizes to the same
category as its noisier source form `9 Holes (Walking)`. -/
theorem normalise_idempotent :
    (∀ L : Str, normaliseGameName (normaliseGameName L) = normaliseGameName L) ∧
    normaliseGameName (str "9 Holes (Walking)") = normaliseGameName (str "9 Holes") :=
  ⟨normaliseGameName_idem, by decide⟩

end TeeTime